import Mathlib

/-!
Verification of the ks-mapper rendering core.

This file gives a shallow embedding, in Lean, of the parts of the
`ksmap` crate that the verified properties talk about:

* `src/ksmap/src/synchronization.rs` — `Limiter`, `ScreenSync::new`,
  and the thread-RNG entropy they consume;
* `src/ksmap/src/partition/{bounds,mod,grid,islands}.rs` — `Bounds`,
  `Partition`, the grid and islands partitioners and
  `merge_redundant_partitions`;
* `src/ksmap/src/drawing/mod.rs` — the layer ordering of `draw_screen`
  and the `proxy_id` computation of `draw_object_layer`;
* `src/ksmap/src/id.rs` — `ObjectId` display and parsing;
* `src/ksmap/src/screen_map.rs` — `ScreenMap`.

Machine integers are modelled as `Nat`/`Int`; Rust strings are modelled
as lists of bytes (`List Nat` of ASCII codes), which matches `str`'s
byte representation for the ASCII-only strings involved.  Stateful Rust
code is modelled by explicit state passing.  Each definition names the
Rust item it embeds.
-/

namespace KSMapper

/-- A screen coordinate, `ScreenCoord = (i32, i32)` in the source.
Values always fit in `i32`; arithmetic on them is done at `i64` width in
the source and never overflows, so plain `Int` is a faithful model. -/
abbrev Coord := Int × Int

/-- A tile, `Tile(u8, u8)` in `libks`: `(bank, index)`.  Both components
are bytes; where the byte range matters a hypothesis `≤ 255` is used. -/
abbrev Tile := Nat × Nat

/-- `ObjectVariant` from `src/ksmap/src/id.rs` (closed enum). -/
inductive ObjectVariant where
  | none | left | glow | spot | floor | circle | square | a | b | c | d
deriving DecidableEq, Repr

/-- `ObjectId(Tile, ObjectVariant)` from `src/ksmap/src/id.rs`. -/
structure ObjectId where
  tile : Tile
  variant : ObjectVariant
deriving DecidableEq, Repr

/-- `ObjectId::from(tile)`: pairs a tile with the `None` variant. -/
def ObjectId.fromTile (t : Tile) : ObjectId := ⟨t, .none⟩

/-- `Limit` from `src/ksmap/src/definitions.rs`. -/
inductive Limit where
  | none
  | first (n : Nat)
  | random (n : Nat)
  | logNPlusOne
deriving DecidableEq, Repr

/-- `ObjectKind` from `src/ksmap/src/definitions.rs`. -/
inductive ObjectKind where
  | object
  | customObject
  | overrideObject (original : Tile)
deriving DecidableEq, Repr

/-- The fields of `ObjectDef` (`src/ksmap/src/definitions.rs`) consumed
by the code embedded in this file (`ScreenSync::new` reads `limit`,
`draw_object_layer` reads `kind`).  The drawing-parameter fields are not
referenced by any embedded function and are omitted. -/
structure ObjectDef where
  kind : ObjectKind
  limit : Limit
deriving DecidableEq, Repr

/-- `ObjectDefs` (`defs: HashMap<ObjectId, ObjectDef>`), modelled by its
lookup function `ObjectDefs::get`. -/
abbrev ObjectDefs := ObjectId → Option ObjectDef

/-- `ScreenData` from `libks::map_bin`, reduced to the fields the
embedded code reads: `position` and the eight tile layers.  Each layer
is `[Tile; 250]` in the source; it is modelled as a list (the embedded
loops iterate the whole layer regardless of its length). -/
structure ScreenData where
  position : Coord
  layers : List (List Tile)
deriving DecidableEq, Repr

/-! ## Limiter (`src/ksmap/src/synchronization.rs`, lines 219–260) -/

/-- `Limiter { count: usize, chosen: Vec<usize> }`. -/
structure Limiter where
  count : Nat
  chosen : List Nat
deriving DecidableEq, Repr

/-- One insertion step of a descending insertion sort. -/
def insertDesc (x : Nat) : List Nat → List Nat
  | [] => [x]
  | y :: l => if y ≤ x then x :: y :: l else y :: insertDesc x l

/-- Descending comparison sort, modelling
`chosen.sort_unstable_by(|a, b| b.cmp(a))` in `Limiter::new`.  The
source contract of `sort_unstable_by` is exactly: the output is a
permutation of the input, sorted by the comparator (descending). -/
def sortDesc : List Nat → List Nat
  | [] => []
  | x :: l => insertDesc x (sortDesc l)

/-- `Limiter::new(chosen)`: sorts `chosen` descending, `count = 0`. -/
def Limiter.new (chosen : List Nat) : Limiter :=
  { count := 0, chosen := sortDesc chosen }

/-- `Limiter::take(n)`: `count = 0`, `chosen = Vec::from_iter(0..n)`.
Note the source does NOT sort here: the vector is ascending
`[0, 1, …, n-1]`, so its `last()` is `n-1`. -/
def Limiter.take (n : Nat) : Limiter :=
  { count := 0, chosen := List.range n }

/-- `Limiter::increment()` (lines 246–259).  Returns the drawn flag and
the successor state.  `chosen.last()` is the last element of the vector
(`List.getLast?`), and `pop` drops it (`List.dropLast`).  When `chosen`
is empty the function returns early WITHOUT touching `count`. -/
def Limiter.increment (l : Limiter) : Bool × Limiter :=
  match l.chosen.getLast? with
  | Option.none => (false, l)
  | some next =>
    let isChosen := l.count = next
    let count' := l.count + 1
    if isChosen then (true, ⟨count', l.chosen.dropLast⟩)
    else (false, ⟨count', l.chosen⟩)

/-- Runs `k` successive calls of `Limiter::increment`, returning the
list of results in call order together with the final state. -/
def Limiter.run (l : Limiter) : Nat → List Bool × Limiter
  | 0 => ([], l)
  | k + 1 =>
    let step := l.increment
    let rest := step.2.run k
    (step.1 :: rest.1, rest.2)

/-! ## ScreenSync (`src/ksmap/src/synchronization.rs`, lines 169–217)

`ScreenSync::new(screen, object_defs, group_anim_t)` in the source draws
`anim_t` from `rng().next_u32()`, where `rng()` is the thread-local RNG
seeded by the operating system — the function takes no map seed at all.
The same ambient RNG is consumed by `Limiter::choose_n` through
`partial_shuffle`.  We model that ambient, run-dependent randomness as
explicit oracle arguments: `entropy` for the `next_u32` call and
`shuffle total n` for the result of `partial_shuffle(&mut rng(), n)` on
`[0..total)`.  The float expression of the `LogNPlusOne` arm
(`(1.0 + (count as f32).log2()).round().clamp(0.0, count as f32)`) is
modelled by the abstract function `logn`; no claim depends on its value.
-/

/-- `ScreenSync` (without the `HashMap` represented as a function). -/
structure ScreenSync where
  anim_t : Nat
  group_anim_t : Option Nat
  limiters : ObjectId → Option Limiter

/-- Number of occurrences of `tile` across the object layers
`screen.layers[4..]` — the value `counts[tile]` computed by the two
nested loops of `ScreenSync::new` (lines 175–181). -/
def countOf (screen : ScreenData) (tile : Tile) : Nat :=
  ((screen.layers.drop 4).map (fun layer => layer.count tile)).sum

/-- The `for (tile, count) in counts` loop of `ScreenSync::new` (lines
183–209), as the resulting lookup function.  The loop inserts at most
one limiter per distinct tile and `ObjectId::from` is injective, so the
(unspecified) `HashMap` iteration order is immaterial and the loop is
faithfully modelled pointwise: `id` holds a limiter exactly when `id`
is `ObjectId::from(tile)` for a tile occurring in layers 4–7 whose
`ObjectDef` exists with a limit other than `None`.  Note the key is the
tile's OWN id — the loop performs no `OverrideObject` redirection. -/
def screenSyncLimiters (shuffle : Nat → Nat → List Nat) (logn : Nat → Nat)
    (screen : ScreenData) (defs : ObjectDefs) : ObjectId → Option Limiter :=
  fun id =>
    if id.variant = ObjectVariant.none ∧ 0 < countOf screen id.tile then
      match defs id with
      | Option.none => Option.none
      | some def_ =>
        match def_.limit with
        | Limit.none => Option.none
        | Limit.first n => some (Limiter.take n)
        | Limit.random n =>
          some (Limiter.new (shuffle (countOf screen id.tile) n))
        | Limit.logNPlusOne =>
          some (Limiter.new (shuffle (countOf screen id.tile)
            (logn (countOf screen id.tile))))
    else Option.none

/-- `ScreenSync::new(screen, object_defs, group_anim_t)` (lines
170–216).  `anim_t = rng().next_u32()` is the first `u32` drawn from the
ambient thread RNG, modelled by the `entropy` argument (reduced mod
`2^32` as `next_u32` is). -/
def ScreenSync.new (entropy : Nat) (shuffle : Nat → Nat → List Nat)
    (logn : Nat → Nat) (screen : ScreenData) (defs : ObjectDefs)
    (group_anim_t : Option Nat) : ScreenSync :=
  { anim_t := entropy % 2 ^ 32
    group_anim_t := group_anim_t
    limiters := screenSyncLimiters shuffle logn screen defs }

/-- The `proxy_id` computation of `draw_object_layer`
(`src/ksmap/src/drawing/mod.rs`, lines 270–275): the id under which the
drawing pipeline looks up the screen's limiter.  For a tile whose
`ObjectDef` kind is `OverrideObject(original)` it is the original
tile's id; otherwise the tile's own id. -/
def proxyId (defs : ObjectDefs) (tile : Tile) : ObjectId :=
  match (defs (ObjectId.fromTile tile)).map (fun d => d.kind) with
  | some (ObjectKind.overrideObject original) => ObjectId.fromTile original
  | _ => ObjectId.fromTile tile

/-! ## Bounds (`src/ksmap/src/partition/bounds.rs`) -/

/-- A half-open `Range<i64>`.  `stop` models the Rust field `end`
(a Lean keyword).  Screen coordinates fit in `i32`, so the `i64`
arithmetic (`max + 1`, unions) never overflows and `Int` is faithful. -/
structure IntRange where
  start : Int
  stop : Int
deriving DecidableEq, Repr

/-- `Bounds { x: Range<i64>, y: Range<i64> }`. -/
structure Bounds where
  x : IntRange
  y : IntRange
deriving DecidableEq, Repr

/-- `Bounds::width` (`self.x.end.abs_diff(self.x.start)`). -/
def Bounds.width (b : Bounds) : Nat := (b.x.stop - b.x.start).natAbs

/-- `Bounds::height`. -/
def Bounds.height (b : Bounds) : Nat := (b.y.stop - b.y.start).natAbs

/-- `Bounds::contains(&self, other)`: superset-or-equal on both axes. -/
def Bounds.contains (b other : Bounds) : Prop :=
  other.x.start ≥ b.x.start ∧ other.x.stop ≤ b.x.stop
    ∧ other.y.start ≥ b.y.start ∧ other.y.stop ≤ b.y.stop

instance (b other : Bounds) : Decidable (b.contains other) := by
  unfold Bounds.contains
  infer_instance

/-- `Bounds::union(a, b)`: componentwise min of starts, max of ends. -/
def Bounds.union (a b : Bounds) : Bounds :=
  ⟨⟨min a.x.start b.x.start, max a.x.stop b.x.stop⟩,
   ⟨min a.y.start b.y.start, max a.y.stop b.y.stop⟩⟩

/-- The single-pass min/max fold of `Bounds::from_iter`'s main loop,
over state `(min_x, min_y, max_x, max_y)`. -/
def boundsFold (ps : List Coord) (st : Int × Int × Int × Int) :
    Int × Int × Int × Int :=
  ps.foldl
    (fun acc q =>
      (min acc.1 q.1, min acc.2.1 q.2, max acc.2.2.1 q.1, max acc.2.2.2 q.2))
    st

/-- `Bounds::from_iter` (`impl FromIterator<&ScreenCoord> for Bounds`):
one pass tracking min/max on both axes, then half-open ranges
`[min, max+1)`; an empty input yields `0..0 × 0..0`. -/
def boundsFromList : List Coord → Bounds
  | [] => ⟨⟨0, 0⟩, ⟨0, 0⟩⟩
  | p :: ps =>
    let st := boundsFold ps (p.1, p.2, p.1, p.2)
    ⟨⟨st.1, st.2.2.1 + 1⟩, ⟨st.2.1, st.2.2.2 + 1⟩⟩

/-! ## Partition (`src/ksmap/src/partition/mod.rs`) -/

/-- `Partition { positions: Vec<ScreenCoord>, bounds: Bounds }`. -/
structure Partition where
  positions : List Coord
  bounds : Bounds
deriving DecidableEq, Repr

/-- `Partition::new(positions)`: caches `Bounds::from(positions)`. -/
def Partition.new (positions : List Coord) : Partition :=
  ⟨positions, boundsFromList positions⟩

/-- `Partition::merge(&mut self, other)`: appends the positions and
takes `Bounds::union`. -/
def Partition.merge (p other : Partition) : Partition :=
  ⟨p.positions ++ other.positions, Bounds.union p.bounds other.bounds⟩

/-- The partitions reachable from the `Partition` constructors the
claim quantifies over: `Partition::new` on a nonempty position list,
closed under `Partition::merge`. -/
inductive Partition.Produced : Partition → Prop where
  | new (positions : List Coord) (h : positions ≠ []) :
      Partition.Produced (Partition.new positions)
  | merge (p q : Partition) :
      Partition.Produced p → Partition.Produced q →
      Partition.Produced (p.merge q)

/-! ## ScreenMap (`src/ksmap/src/screen_map.rs`) -/

/-- `ScreenMap { screens: Vec<ScreenData>, indices: HashMap<ScreenCoord,
usize> }`, with the hash map modelled by its lookup function. -/
structure ScreenMap where
  screens : List ScreenData
  indices : Coord → Option Nat

/-- One `indices.insert(screen.position, i)` step of `ScreenMap::new`:
the inserted binding shadows whatever the map held before. -/
def insertIndex (m : Coord → Option Nat) (is : Nat × ScreenData) :
    Coord → Option Nat :=
  fun p => if p = is.2.position then some is.1 else m p

/-- `ScreenMap::new(screens)`: inserts `(screen.position, i)` for each
screen in order; a later insert for the same coordinate overwrites the
earlier one (`HashMap::insert` semantics). -/
def ScreenMap.new (screens : List ScreenData) : ScreenMap :=
  ⟨screens, screens.enum.foldl insertIndex (fun _ => Option.none)⟩

/-- `ScreenMap::get(position)`: looks up the index, then indexes
`screens` (always in range for maps built by `ScreenMap::new`). -/
def ScreenMap.get (sm : ScreenMap) (p : Coord) : Option ScreenData :=
  (sm.indices p).bind (fun i => sm.screens.get? i)

/-- `ScreenMap::index(position)`. -/
def ScreenMap.indexOfPos (sm : ScreenMap) (p : Coord) : Option Nat :=
  sm.indices p

/-- `ScreenMap::len()`. -/
def ScreenMap.len (sm : ScreenMap) : Nat := sm.screens.length

/-- `ScreenMap::iter_positions()`. -/
def ScreenMap.iterPositions (sm : ScreenMap) : List Coord :=
  sm.screens.map (fun s => s.position)

/-! ## Grid partitioner (`src/ksmap/src/partition/grid.rs`) -/

/-- `(w as f64 / c as f64).ceil() as u64` for the widths involved.  The
source computes the ceiling in `f64`; for `c ≥ 1` and the magnitudes
reachable here (widths are at most `2^33`, well below `2^53`) the `f64`
computation is exact and equals the integer ceiling division. -/
def ceilDivNat (w c : Nat) : Nat := (w + c - 1) / c

/-- `calc_grid_rows(bounds, max_height)`. -/
def calcGridRows (b : Bounds) (maxHeight : Nat) : Nat :=
  ceilDivNat b.height maxHeight

/-- `calc_grid_cols(bounds, max_width)`. -/
def calcGridCols (b : Bounds) (maxWidth : Nat) : Nat :=
  ceilDivNat b.width maxWidth

/-- `calc_grid_dimensions(bounds, max_size)` returning `(rows, cols)`. -/
def calcGridDimensions (b : Bounds) (maxSize : Nat × Nat) : Nat × Nat :=
  (calcGridRows b maxSize.2, calcGridCols b maxSize.1)

/-- The cell index assigned to `position` by the loop body of
`partitions_from_grid`: `dx = x.abs_diff(bounds.x.start)`,
`cell_x = min(dx / cell_width, cols - 1)`, `cell_i = cell_x + cell_y *
cols`. -/
def gridCellIndex (b : Bounds) (cellWidth cellHeight rows cols : Nat)
    (position : Coord) : Nat :=
  let dx := (position.1 - b.x.start).natAbs
  let dy := (position.2 - b.y.start).natAbs
  let cellX := min (dx / cellWidth) (cols - 1)
  let cellY := min (dy / cellHeight) (rows - 1)
  cellX + cellY * cols

/-- The push loop of `partitions_from_grid`: starting from `n_cells`
empty buckets, appends each position to the bucket of its cell index. -/
def gridBuckets (positions : List Coord) (b : Bounds)
    (cellWidth cellHeight rows cols : Nat) : List (List Coord) :=
  positions.foldl
    (fun cells pos =>
      let ci := gridCellIndex b cellWidth cellHeight rows cols pos
      cells.set ci (cells.getD ci [] ++ [pos]))
    (List.replicate (rows * cols) ([] : List Coord))

/-- `partitions_from_grid(positions, bounds, rows, cols)`: bucket the
positions by cell, drop empty cells, wrap each cell in
`Partition::new`. -/
def partitionsFromGrid (positions : List Coord) (b : Bounds)
    (rows cols : Nat) : List Partition :=
  let cellWidth := ceilDivNat b.width cols
  let cellHeight := ceilDivNat b.height rows
  ((gridBuckets positions b cellWidth cellHeight rows cols).filter
      (fun c => ¬ c.isEmpty)).map Partition.new

/-- `GridPartitioner { max_size, rows, cols }`. -/
structure GridPartitioner where
  maxSize : Nat × Nat
  rowsOpt : Option Nat
  colsOpt : Option Nat

/-- `GridPartitioner::partitions(screens)`: one partition when the
bounds fit in `max_size`, otherwise `partitions_from_grid`. -/
def GridPartitioner.partitions (g : GridPartitioner) (sm : ScreenMap) :
    List Partition :=
  let bounds := boundsFromList sm.iterPositions
  if bounds.width ≤ g.maxSize.1 ∧ bounds.height ≤ g.maxSize.2 then
    [Partition.new sm.iterPositions]
  else
    let rows := g.rowsOpt.getD (calcGridRows bounds g.maxSize.2)
    let cols := g.colsOpt.getD (calcGridCols bounds g.maxSize.1)
    partitionsFromGrid sm.iterPositions bounds rows cols

/-! ## Islands partitioner (`src/ksmap/src/partition/islands.rs`) -/

/-- `is_partition_too_large(partition, max_size)`. -/
def isPartitionTooLarge (p : Partition) (maxSize : Nat × Nat) : Bool :=
  decide (maxSize.1 < p.bounds.width) || decide (maxSize.2 < p.bounds.height)

/-- `attenuate_max_gap(min_gap, max_gap)` (lines 81–89):
`min_gap + diff/2` when the difference exceeds 5, else
`max(min_gap, max_gap - 1)` (`saturating_sub` is `Nat` subtraction). -/
def attenuateMaxGap (minGap maxGap : Nat) : Nat :=
  let diff := maxGap - minGap
  if 5 < diff then minGap + diff / 2
  else max minGap (maxGap - 1)

/-- Manhattan distance between two screen coordinates:
`abs_diff` on each axis, then `saturating_add` (never saturates for
`i32` inputs). -/
def manhattan (p q : Coord) : Nat :=
  (p.1 - q.1).natAbs + (p.2 - q.2).natAbs

/-- The edge list built by `partition_into_graph`: node `k` is the
`k`-th position; when node `k` is added it gains an edge to every
earlier node `m < k` within `max_gap` Manhattan distance. -/
def gapEdges (positions : List Coord) (maxGap : Nat) : List (Nat × Nat) :=
  (List.range positions.length).flatMap (fun k =>
    ((List.range k).filter (fun m =>
        manhattan (positions.getD k (0, 0)) (positions.getD m (0, 0)) ≤ maxGap)).map
      (fun m => (k, m)))

/-- `UnionFind::find` of petgraph: follow the parent vector to a root
without mutating it.  The chain length is bounded by the vector length,
used here as fuel. -/
def ufFindAux (parent : List Nat) : Nat → Nat → Nat
  | 0, x => x
  | fuel + 1, x =>
    let p := parent.getD x x
    if p = x then x else ufFindAux parent fuel p

/-- `UnionFind::find(x)`. -/
def ufFind (parent : List Nat) (x : Nat) : Nat :=
  ufFindAux parent parent.length x

/-- `UnionFind::union(a, b)`: finds both roots and links one under the
other.  (petgraph picks the link direction by rank and compresses paths
in `find_mut`; those policies change which root represents a class but
never the partition of nodes into classes, which is all that is
consumed here.) -/
def ufUnion (parent : List Nat) (a b : Nat) : List Nat :=
  let ra := ufFind parent a
  let rb := ufFind parent b
  if ra = rb then parent else parent.set ra rb

/-- The per-node component labels of `graph_into_partitions`: a
union-find over all nodes seeded with the gap edges, then
`vertex_sets.find(node)` for each node. -/
def componentLabels (positions : List Coord) (maxGap : Nat) : List Nat :=
  let parent := (gapEdges positions maxGap).foldl
    (fun par e => ufUnion par e.1 e.2)
    (List.range positions.length)
  (List.range positions.length).map (fun k => ufFind parent k)

/-- One `entry(parent).or_insert_with(Vec::new).push(pos)` step of
`graph_into_partitions`, on an association list of groups. -/
def addToGroup (groups : List (Nat × List Coord)) (k : Nat) (pos : Coord) :
    List (Nat × List Coord) :=
  match groups with
  | [] => [(k, [pos])]
  | g :: gs => if g.1 = k then (k, g.2 ++ [pos]) :: gs
               else g :: addToGroup gs k pos

/-- Accumulates labelled positions into groups, modelling the
`FxHashMap<NodeIndex, Vec<ScreenCoord>>` accumulation of
`graph_into_partitions`.  Groups are listed in first-occurrence order
of their label; the hash map's own iteration order is unspecified, and
every property verified here is invariant under reordering of the
resulting partition list. -/
def groupByKey (l : List (Nat × Coord)) : List (Nat × List Coord) :=
  l.foldl (fun gs kp => addToGroup gs kp.1 kp.2) []

/-- `graph_into_partitions(partition_into_graph(partition, max_gap))`:
group the positions by their component label and wrap each group in
`Partition::new`. -/
def graphIntoPartitions (positions : List Coord) (maxGap : Nat) :
    List Partition :=
  (groupByKey ((componentLabels positions maxGap).zip positions)).map
    (fun g => Partition.new g.2)

/-- `partition_recursively` (lines 49–74), with explicit structural
fuel.  The source recursion terminates because `attenuate_max_gap`
strictly decreases `max_gap` on every recursive call (proved below), so
any `fuel > max_gap` makes the fuel bound unreachable; the exported
`partitionRecursively` below supplies such a fuel. -/
def partitionRecursivelyF (maxSize : Nat × Nat) (minGap : Nat) :
    Nat → Nat → Partition → List Partition
  | 0, _, p => [p]
  | fuel + 1, maxGap, p =>
    (graphIntoPartitions p.positions maxGap).flatMap (fun q =>
      if isPartitionTooLarge q maxSize ∧ minGap < maxGap then
        partitionRecursivelyF maxSize minGap fuel
          (attenuateMaxGap minGap maxGap) q
      else if isPartitionTooLarge q maxSize ∧ maxGap = minGap then
        let rc := calcGridDimensions q.bounds maxSize
        partitionsFromGrid q.positions q.bounds rc.1 rc.2
      else [q])

/-- `partition_recursively(partition, max_size, min_gap, max_gap)`. -/
def partitionRecursively (maxSize : Nat × Nat) (minGap maxGap : Nat)
    (p : Partition) : List Partition :=
  partitionRecursivelyF maxSize minGap (maxGap + 1) maxGap p

/-- The guard of the recursive branch of `partition_recursively`, for
one candidate subpartition: `is_too_large && max_gap > min_gap`.  The
function recurses exactly when some candidate satisfies it. -/
def takesRecursiveBranch (p : Partition) (maxSize : Nat × Nat)
    (minGap maxGap : Nat) : Bool :=
  (graphIntoPartitions p.positions maxGap).any (fun q =>
    isPartitionTooLarge q maxSize && decide (minGap < maxGap))

/-! ## merge_redundant_partitions (`src/ksmap/src/partition/mod.rs`,
lines 23–51) -/

/-- `Vec::swap_remove(j)`: moves the last element into slot `j` and
shrinks the vector by one. -/
def swapRemove (l : List Partition) (j : Nat) : List Partition :=
  match l.getLast? with
  | Option.none => l
  | some last => (l.set j last).dropLast

/-- A partition list's bounds at index `k` (the default is never
reached at the indices used). -/
def boundsAt (ps : List Partition) (k : Nat) : Bounds :=
  (ps.getD k (Partition.new [])).bounds

/-- The merge step shared by both containment branches of the inner
loop: `let removed = partitions.swap_remove(j); partitions[i].merge(removed)`. -/
def mergeStep (ps : List Partition) (i j : Nat) : List Partition :=
  (swapRemove ps j).set i
    (((swapRemove ps j).getD i (Partition.new [])).merge
      (ps.getD j (Partition.new [])))

/-- The inner `while j < partitions.len()` loop of
`merge_redundant_partitions`, with explicit structural fuel.  The
`current` argument is the snapshot `let current = partitions[i].bounds()`
cloned at line 28, once per outer iteration, BEFORE the inner loop: the
Rust code never refreshes it, so both containment tests keep comparing
against this stale value even after the second branch merges a larger
partition into slot `i` and restarts at `j = i + 1`.  Each iteration
either removes one partition (branches 1 and 2) or increments `j`
(branch 3), so `(len+1)*(len+2)` steps always suffice; the exported
`innerLoop` below supplies that fuel. -/
def innerLoopF : Nat → Bounds → List Partition → Nat → Nat → List Partition
  | 0, _, ps, _, _ => ps
  | fuel + 1, current, ps, i, j =>
    if i < ps.length ∧ j < ps.length then
      -- `other = partitions[j].bounds()`
      if current.contains (boundsAt ps j) then
        -- we contain the other partition: `swap_remove(j)` it and merge it in
        innerLoopF fuel current (mergeStep ps i j) i j
      else if (boundsAt ps j).contains current then
        -- the other contains us: merge it in and rescan from `j = i + 1`
        -- (`current` itself is NOT recomputed)
        innerLoopF fuel current (mergeStep ps i j) i (i + 1)
      else innerLoopF fuel current ps i (j + 1)
    else ps

/-- The inner loop with sufficient fuel, started on the snapshot
`partitions[i].bounds()` taken at the head of the outer iteration. -/
def innerLoop (ps : List Partition) (i j : Nat) : List Partition :=
  innerLoopF ((ps.length + 1) * (ps.length + 2)) (boundsAt ps i) ps i j

/-- The outer `while i < partitions.len()` loop, with fuel: `i`
increases by one each step and the length never grows, so `len + 1`
steps suffice. -/
def outerLoopF : Nat → List Partition → Nat → List Partition
  | 0, ps, _ => ps
  | fuel + 1, ps, i =>
    if i < ps.length then outerLoopF fuel (innerLoop ps i (i + 1)) (i + 1)
    else ps

/-- `merge_redundant_partitions(partitions)`. -/
def mergeRedundantPartitions (ps : List Partition) : List Partition :=
  outerLoopF (ps.length + 1) ps 0

/-- `IslandsPartitioner { max_size, gap: min..=max, force }`. -/
structure IslandsPartitioner where
  maxSize : Nat × Nat
  gapMin : Nat
  gapMax : Nat
  force : Bool

/-- `IslandsPartitioner::partitions(screens)` (lines 30–47). -/
def IslandsPartitioner.partitions (isl : IslandsPartitioner)
    (sm : ScreenMap) : List Partition :=
  let partition := Partition.new sm.iterPositions
  if isl.force = false ∧ isPartitionTooLarge partition isl.maxSize = false then
    [partition]
  else
    mergeRedundantPartitions
      (partitionRecursively isl.maxSize isl.gapMin isl.gapMax partition)

/-- Both distinct-index orderings of `Bounds::contains` fail between
slots `a` and `b` — the "no partition's bounds is contained in
another's" relation that `merge_redundant_partitions` is meant to
establish (its stale `current` snapshot prevents it from doing so in
general; see the theorems below). -/
def pairClean (ps : List Partition) (a b : Nat) : Prop :=
  ¬ (boundsAt ps a).contains (boundsAt ps b)
    ∧ ¬ (boundsAt ps b).contains (boundsAt ps a)

instance (ps : List Partition) (a b : Nat) : Decidable (pairClean ps a b) := by
  unfold pairClean
  infer_instance

/-- A three-partition list whose `Partition.new` bounds are
A = `[0,1)×[0,1)`, B = `[0,10)×[0,10)` and C = `[5,6)×[5,6)`:
A ⊂ B and C ⊂ B while A and C are incomparable — the shape on which
the never-refreshed `current` snapshot of `merge_redundant_partitions`
becomes observable. -/
def staleSnapshotInput : List Partition :=
  [Partition.new [((0 : Int), (0 : Int))],
   Partition.new [((0 : Int), (0 : Int)), (9, 9)],
   Partition.new [((5 : Int), (5 : Int))]]

/-- The flattened positions of a partition list, for the
coverage/permutation statements. -/
def allPositions (ps : List Partition) : List Coord :=
  ps.flatMap Partition.positions

/-! ## Layer order of `draw_screen` (`src/ksmap/src/drawing/mod.rs`,
lines 179–242) -/

/-- One compositing step of `draw_screen`: the gradient tiling, a
`draw_tile_layer(layers[n])` call, or a `draw_object_layer(layers[n])`
call. -/
inductive DrawStep where
  | gradient
  | tileLayer (n : Nat)
  | objectLayer (n : Nat)
deriving DecidableEq, Repr

/-- The sequence of compositing calls made by `draw_screen`, in program
order: gradient; tile layers 0, 1, (2 only if `!is_overlay`), 3; object
layers 4, 5, 6; tile layer 2 if `is_overlay`; object layer 7. -/
def drawScreenOrder (isOverlay : Bool) : List DrawStep :=
  [DrawStep.gradient, DrawStep.tileLayer 0, DrawStep.tileLayer 1]
    ++ (if isOverlay then [] else [DrawStep.tileLayer 2])
    ++ [DrawStep.tileLayer 3, DrawStep.objectLayer 4, DrawStep.objectLayer 5,
        DrawStep.objectLayer 6]
    ++ (if isOverlay then [DrawStep.tileLayer 2] else [])
    ++ [DrawStep.objectLayer 7]

/-! ## ObjectId strings (`src/ksmap/src/id.rs`)

Rust `str` values are byte strings; every string handled by
`ObjectId`'s `Display`/`TryFrom` is ASCII, so strings are modelled as
lists of byte values.  Relevant bytes: `'-' = 45`, `' ' = 32`,
`'+' = 43`, digits `48–57`. -/

/-- Decimal digit bytes, most significant first, with structural fuel
(`n / 10 < n`, so any fuel above `n` suffices and `natDigits` below
supplies it). -/
def natDigitsAux : Nat → Nat → List Nat
  | 0, _ => []
  | fuel + 1, n =>
    if n < 10 then [48 + n]
    else natDigitsAux fuel (n / 10) ++ [48 + n % 10]

/-- The decimal digits of `n`, most significant first — the bytes
produced by formatting an unsigned integer with `{}`. -/
def natDigits (n : Nat) : List Nat := natDigitsAux (n + 1) n

/-- The bytes of an `ObjectVariant`'s `Display` form (`""` for
`None`). -/
def variantBytes : ObjectVariant → List Nat
  | ObjectVariant.none => []
  | ObjectVariant.left => [76, 101, 102, 116]
  | ObjectVariant.glow => [71, 108, 111, 119]
  | ObjectVariant.spot => [83, 112, 111, 116]
  | ObjectVariant.floor => [70, 108, 111, 111, 114]
  | ObjectVariant.circle => [67, 105, 114, 99, 108, 101]
  | ObjectVariant.square => [83, 113, 117, 97, 114, 101]
  | ObjectVariant.a => [65]
  | ObjectVariant.b => [66]
  | ObjectVariant.c => [67]
  | ObjectVariant.d => [68]

/-- `Display for ObjectId`: `"{bank}-{index}"`, with `" {variant}"`
appended for variants other than `None`. -/
def displayObjectId (id : ObjectId) : List Nat :=
  natDigits id.tile.1 ++ 45 :: natDigits id.tile.2
    ++ (match id.variant with
        | ObjectVariant.none => []
        | v => 32 :: variantBytes v)

/-- `str::split_once(c)`: splits at the first occurrence of `c`,
returning the parts before and after it, or `None` when absent. -/
def splitOnce (l : List Nat) (c : Nat) : Option (List Nat × List Nat) :=
  match l with
  | [] => Option.none
  | x :: xs =>
    if x = c then some ([], xs)
    else (splitOnce xs c).map (fun p => (x :: p.1, p.2))

/-- `str::parse::<u8>()`: an optional leading `'+'`, then one or more
decimal digits, accumulated with overflow checks against 255. -/
def parseU8 (l : List Nat) : Option Nat :=
  let digits := match l with
    | 43 :: rest => rest
    | _ => l
  if digits.isEmpty then Option.none
  else
    digits.foldl
      (fun acc c =>
        acc.bind (fun v =>
          if 48 ≤ c ∧ c ≤ 57 then
            let v' := v * 10 + (c - 48)
            if v' ≤ 255 then some v' else Option.none
          else Option.none))
      (some 0)

/-- `TryFrom<&str> for ObjectVariant`: the closed table of variant
names; the empty string maps to `None`. -/
def parseVariant (l : List Nat) : Option ObjectVariant :=
  if l = [] then some ObjectVariant.none
  else if l = variantBytes ObjectVariant.left then some ObjectVariant.left
  else if l = variantBytes ObjectVariant.glow then some ObjectVariant.glow
  else if l = variantBytes ObjectVariant.spot then some ObjectVariant.spot
  else if l = variantBytes ObjectVariant.floor then some ObjectVariant.floor
  else if l = variantBytes ObjectVariant.circle then some ObjectVariant.circle
  else if l = variantBytes ObjectVariant.square then some ObjectVariant.square
  else if l = variantBytes ObjectVariant.a then some ObjectVariant.a
  else if l = variantBytes ObjectVariant.b then some ObjectVariant.b
  else if l = variantBytes ObjectVariant.c then some ObjectVariant.c
  else if l = variantBytes ObjectVariant.d then some ObjectVariant.d
  else Option.none

/-- `TryFrom<&str> for ObjectId` (lines 81–106): split at the first
space to obtain the variant (or `None` when no space), split the rest
at `'-'`, and parse bank and index as `u8`. -/
def parseObjectId (l : List Nat) : Option ObjectId :=
  let split := match splitOnce l 32 with
    | some (idPart, variantPart) => (idPart, parseVariant variantPart)
    | Option.none => (l, some ObjectVariant.none)
  match split.2 with
  | Option.none => Option.none
  | some variant =>
    match splitOnce split.1 45 with
    | Option.none => Option.none
    | some (bankPart, indexPart) =>
      match parseU8 bankPart, parseU8 indexPart with
      | some bank, some index => some ⟨(bank, index), variant⟩
      | _, _ => Option.none

/-- The spec's description of a valid `ObjectId` string: `"B-I"` or
`"B-I V"` with `B`, `I` decimal bytes and `V` one of the named
variants.  (Definition follows the spec's words, for comparison with the
source-derived `displayObjectId`.) -/
def validForm (bank index : Nat) (v : ObjectVariant) : List Nat :=
  natDigits bank ++ 45 :: natDigits index
    ++ (if v = ObjectVariant.none then [] else 32 :: variantBytes v)

/-! ## Concrete inputs used by the claims below -/

/-- An empty 250-tile layer. -/
def emptyLayer : List Tile := List.replicate 250 (0, 0)

/-- A screen at `(0,0)` whose eight layers are all empty. -/
def emptyScreen : ScreenData := ⟨(0, 0), List.replicate 8 emptyLayer⟩

/-- Object definitions for the C4 scenario: tile `(255,1)` is an
override-custom-object onto `(8,15)` with (inherited) limit
`First{1}`; nothing else is defined. -/
def defsOco : ObjectDefs := fun id =>
  if id = ObjectId.fromTile (255, 1) then
    some ⟨ObjectKind.overrideObject (8, 15), Limit.first 1⟩
  else Option.none

/-- A screen whose object layer 4 holds two occurrences of the OCO tile
`(255,1)`; everything else is empty. -/
def screenOco : ScreenData :=
  ⟨(0, 0),
    List.replicate 4 emptyLayer ++
      [(255, 1) :: (255, 1) :: List.replicate 248 ((0 : Nat), (0 : Nat))] ++
      List.replicate 3 emptyLayer⟩

/-! ## Limiter lemmas -/

lemma insertDesc_perm (x : Nat) (l : List Nat) :
    (insertDesc x l).Perm (x :: l) := by
  induction l with
  | nil => simp [insertDesc]
  | cons y l ih =>
    by_cases h : y ≤ x
    · simp [insertDesc, h]
    · simp only [insertDesc, if_neg h]
      exact (ih.cons y).trans (List.Perm.swap x y l)

lemma sortDesc_perm (l : List Nat) : (sortDesc l).Perm l := by
  induction l with
  | nil => simp [sortDesc]
  | cons x l ih => exact (insertDesc_perm x (sortDesc l)).trans (ih.cons x)

lemma insertDesc_sorted (x : Nat) (l : List Nat)
    (h : l.Pairwise (· ≥ ·)) : (insertDesc x l).Pairwise (· ≥ ·) := by
  induction l with
  | nil => simp [insertDesc]
  | cons y l ih =>
    rcases List.pairwise_cons.mp h with ⟨hy, hl⟩
    by_cases hle : y ≤ x
    · simp only [insertDesc, if_pos hle]
      refine List.pairwise_cons.mpr ⟨?_, h⟩
      intro z hz
      rcases List.mem_cons.mp hz with rfl | hz
      · exact hle
      · exact le_trans (hy z hz) hle
    · simp only [insertDesc, if_neg hle]
      refine List.pairwise_cons.mpr ⟨?_, ih hl⟩
      intro z hz
      have := (insertDesc_perm x l).mem_iff.mp hz
      rcases List.mem_cons.mp this with rfl | hz'
      · exact le_of_not_le hle
      · exact hy z hz'

lemma sortDesc_sorted (l : List Nat) : (sortDesc l).Pairwise (· ≥ ·) := by
  induction l with
  | nil => simp [sortDesc]
  | cons x l ih => exact insertDesc_sorted x (sortDesc l) ih

lemma sortDesc_strict (l : List Nat) (h : l.Nodup) :
    (sortDesc l).Pairwise (· > ·) := by
  have hnd : (sortDesc l).Nodup := ((sortDesc_perm l).nodup_iff).mpr h
  have := (sortDesc_sorted l).and hnd
  exact this.imp (fun hab => lt_of_le_of_ne hab.1 (Ne.symm hab.2))

lemma count_true_add_count_false (bs : List Bool) :
    bs.count true + bs.count false = bs.length := by
  induction bs with
  | nil => simp
  | cons b bs ih =>
    cases b <;> simp [List.count_cons, ih] <;> omega

/-- Core behaviour of a run of `increment` calls on a strictly
descending `chosen` list whose elements all lie in `[t, t + k)`:
exactly `chosen.length` of the `k` calls return `true`. -/
lemma Limiter.run_count (k : Nat) : ∀ (t : Nat) (cs : List Nat),
    cs.Pairwise (· > ·) → (∀ e ∈ cs, t ≤ e ∧ e < t + k) →
    ((Limiter.run ⟨t, cs⟩ k).1.count true = cs.length) := by
  induction k with
  | zero =>
    intro t cs _ hb
    cases cs with
    | nil => simp [Limiter.run]
    | cons e cs =>
      exact absurd ((hb e (List.mem_cons_self e cs)).2)
        (by have := (hb e (List.mem_cons_self e cs)).1; omega)
  | succ k ih =>
    intro t cs hs hb
    cases hlast : cs.getLast? with
    | none =>
      have hcs : cs = [] := by
        cases cs with
        | nil => rfl
        | cons e cs => simp [List.getLast?_eq_some_iff] at hlast
      subst hcs
      simp only [Limiter.run, Limiter.increment, List.getLast?_nil]
      have := ih t [] (by simp) (by simp)
      simpa [Limiter.run] using this
    | some last =>
      rcases List.getLast?_eq_some_iff.mp hlast with ⟨d, rfl⟩
      have hdrop : (d ++ [last]).dropLast = d := List.dropLast_concat
      have hmin : ∀ e ∈ d, last < e := by
        intro e he
        exact (List.pairwise_append.mp hs).2.2 e he last (List.mem_singleton_self last)
      by_cases heq : t = last
      · -- chosen: the call returns true and pops `last`
        subst heq
        simp only [Limiter.run, Limiter.increment, hlast, if_pos rfl, hdrop]
        have hsd : d.Pairwise (· > ·) :=
          (List.pairwise_append.mp hs).1
        have hbd : ∀ e ∈ d, t + 1 ≤ e ∧ e < (t + 1) + k := by
          intro e he
          refine ⟨by have := hmin e he; omega, ?_⟩
          have := (hb e (List.mem_append_left _ he)).2
          omega
        have := ih (t + 1) d hsd hbd
        simp only [List.count_cons, this]
        simp
        exact this
      · -- not chosen: the call returns false, the counter advances
        have hne : (t = last) = False := by simp [heq]
        simp only [Limiter.run, Limiter.increment, hlast, hne, if_false]
        have htlt : t < last := lt_of_le_of_ne
          ((hb last (List.mem_append_right _ (List.mem_singleton_self last))).1) heq
        have hbd : ∀ e ∈ d ++ [last], t + 1 ≤ e ∧ e < (t + 1) + k := by
          intro e he
          constructor
          · rcases List.mem_append.mp he with he' | he'
            · have := hmin e he'
              omega
            · have : e = last := List.mem_singleton.mp he'
              omega
          · have := (hb e he).2
            omega
        have := ih (t + 1) (d ++ [last]) hs hbd
        simp only [List.count_cons, this]
        simp

lemma Limiter.run_length (l : Limiter) (k : Nat) :
    (l.run k).1.length = k := by
  induction k generalizing l with
  | zero => simp [Limiter.run]
  | succ k ih => simp [Limiter.run, ih]

/-! ## Claims C1–C4 -/

/-- C1 (code bug exhibit): `ScreenSync::new` draws its per-screen
animation time from the ambient thread RNG (`rng().next_u32()`), not
from the map seed — the function does not even receive the seed.  With
the map and object definitions held fixed, two runs whose thread RNG
yields different first draws produce different `anim_t`, so the random
quantities consumed while building `ScreenSync` are not a function of
`(seed, map, object definitions)` alone. -/
theorem screenSync_anim_t_not_seed_determined :
    (ScreenSync.new 0 (fun _ _ => []) (fun _ => 0) emptyScreen
        (fun _ => Option.none) Option.none).anim_t
      ≠ (ScreenSync.new 1 (fun _ _ => []) (fun _ => 0) emptyScreen
        (fun _ => Option.none) Option.none).anim_t := by
  decide

/-- C2 (code bug exhibit): `Limiter::take(2)` builds `chosen = [0, 1]`
in ASCENDING order, while `Limiter::increment` compares the counter to
`chosen.last()`.  Over two occurrences the calls return
`[false, true]` — only ONE draw, and it is the second occurrence — not
`[true, true]` (the first `min(n, occurrences) = 2` occurrences) as the
claim states. -/
theorem limiter_take_eval :
    ((Limiter.take 2).run 2).1 = [false, true]
      ∧ ((Limiter.take 2).run 2).1.count true = 1 := by
  decide

/-- C3 (counterexample): an `increment` call on a limiter whose
`chosen` list is empty returns early and does NOT increment the
internal counter, contradicting the claim that every call (including
calls when `chosen` is empty) increments the counter by one. -/
theorem limiter_increment_empty_cex :
    ¬ ((Limiter.increment (Limiter.new [])).2.count
        = (Limiter.new []).count + 1) := by
  decide

/-- C3 (amended): for a limiter built by `Limiter::new` from a
duplicate-free `chosen` list whose indices all lie below `count`,
`count` successive `increment` calls return `true` exactly
`chosen.length` times and `false` the remaining times; and a single
`increment` call increments the internal counter by one exactly when
`chosen` is nonempty at the time of the call (an empty-`chosen` call
returns early and leaves the counter unchanged). -/
theorem limiter_new_run_spec (chosen : List Nat) (count : Nat) (l : Limiter)
    (hnd : chosen.Nodup) (hlt : ∀ e ∈ chosen, e < count) :
    (((Limiter.new chosen).run count).1.count true = chosen.length)
    ∧ (((Limiter.new chosen).run count).1.count false = count - chosen.length)
    ∧ (l.increment.2.count = if l.chosen.isEmpty then l.count else l.count + 1) := by
  have hperm := sortDesc_perm chosen
  have hlen : (sortDesc chosen).length = chosen.length := hperm.length_eq
  have htrue : (((Limiter.new chosen).run count).1.count true = chosen.length) := by
    have h := Limiter.run_count count 0 (sortDesc chosen)
      (sortDesc_strict chosen hnd)
      (by
        intro e he
        exact ⟨Nat.zero_le e, by simpa using hlt e (hperm.mem_iff.mp he)⟩)
    simpa [Limiter.new, hlen] using h
  refine ⟨htrue, ?_, ?_⟩
  · have hl := Limiter.run_length (Limiter.new chosen) count
    have hc := count_true_add_count_false (((Limiter.new chosen).run count).1)
    omega
  · rcases l with ⟨c, cs⟩
    cases hcs : cs.getLast? with
    | none =>
      have : cs = [] := List.getLast?_eq_none_iff.mp hcs
      subst this
      simp [Limiter.increment]
    | some z =>
      have hne : cs ≠ [] := by
        intro h
        subst h
        simp at hcs
      simp only [Limiter.increment, hcs]
      have : cs.isEmpty = false := by
        simpa [List.isEmpty_iff] using hne
      by_cases hz : c = z
      · simp [hz, this]
      · simp [hz, this]

/-- Witness for C3: the amended theorem applied at
`chosen = [0, 2]`, `count = 3`, and the concrete limiter `⟨5, []⟩`. -/
theorem limiter_new_run_spec_witness :
    (((Limiter.new [0, 2]).run 3).1.count true = [0, 2].length)
    ∧ (((Limiter.new [0, 2]).run 3).1.count false = 3 - [0, 2].length)
    ∧ ((Limiter.mk 5 []).increment.2.count
        = if (Limiter.mk 5 []).chosen.isEmpty then (Limiter.mk 5 []).count
          else (Limiter.mk 5 []).count + 1) :=
  limiter_new_run_spec [0, 2] 3 (Limiter.mk 5 []) (by decide) (by decide)

set_option maxRecDepth 8000 in
/-- C4 (code bug exhibit): on a screen with two occurrences of the OCO
tile `(255,1)` overriding `(8,15)` with inherited limit `First{1}`,
`ScreenSync::new` keys the limiter under the OCO tile's OWN id, while
`draw_object_layer` looks the limiter up under `proxy_id`, the
ORIGINAL tile's id `(8,15)`.  The lookup therefore finds no limiter and
the limit is never applied — the occurrence is not counted under the
original tile's id as the claim states. -/
theorem screenSync_limiter_oco_key_mismatch :
    (proxyId defsOco (255, 1) = ObjectId.fromTile (8, 15))
    ∧ ((ScreenSync.new 0 (fun _ _ => []) (fun _ => 0) screenOco defsOco
          Option.none).limiters (proxyId defsOco (255, 1)) = Option.none)
    ∧ ((ScreenSync.new 0 (fun _ _ => []) (fun _ => 0) screenOco defsOco
          Option.none).limiters (ObjectId.fromTile (255, 1))
        = some (Limiter.take 1)) := by
  refine ⟨by decide, ?_, ?_⟩ <;> decide

/-! ## Bounds lemmas -/

lemma boundsFold_eq (ps : List Coord) (a b c d : Int) :
    boundsFold ps (a, b, c, d)
      = ((ps.map Prod.fst).foldl min a, (ps.map Prod.snd).foldl min b,
         (ps.map Prod.fst).foldl max c, (ps.map Prod.snd).foldl max d) := by
  induction ps generalizing a b c d with
  | nil => rfl
  | cons p ps ih => simpa [boundsFold] using ih (min a p.1) (min b p.2) (max c p.1) (max d p.2)

lemma foldl_min_out (ys : List Int) (a b : Int) :
    ys.foldl min (min a b) = min a (ys.foldl min b) := by
  induction ys generalizing b with
  | nil => rfl
  | cons y ys ih =>
    simp only [List.foldl_cons, min_assoc]
    exact ih (min b y)

lemma foldl_max_out (ys : List Int) (a b : Int) :
    ys.foldl max (max a b) = max a (ys.foldl max b) := by
  induction ys generalizing b with
  | nil => rfl
  | cons y ys ih =>
    simp only [List.foldl_cons, max_assoc]
    exact ih (max b y)

lemma boundsFromList_append (l₁ l₂ : List Coord)
    (h₁ : l₁ ≠ []) (h₂ : l₂ ≠ []) :
    boundsFromList (l₁ ++ l₂)
      = Bounds.union (boundsFromList l₁) (boundsFromList l₂) := by
  rcases l₁ with _ | ⟨p, ps⟩
  · exact absurd rfl h₁
  rcases l₂ with _ | ⟨q, qs⟩
  · exact absurd rfl h₂
  simp only [List.cons_append, boundsFromList, boundsFold_eq, Bounds.union]
  have hmin : ∀ (f : Coord → Int),
      ((ps ++ q :: qs).map f).foldl min (f p)
        = min ((ps.map f).foldl min (f p)) ((qs.map f).foldl min (f q)) := by
    intro f
    rw [List.map_append, List.foldl_append, List.map_cons, List.foldl_cons,
      foldl_min_out]
  have hmax : ∀ (f : Coord → Int),
      ((ps ++ q :: qs).map f).foldl max (f p)
        = max ((ps.map f).foldl max (f p)) ((qs.map f).foldl max (f q)) := by
    intro f
    rw [List.map_append, List.foldl_append, List.map_cons, List.foldl_cons,
      foldl_max_out]
  refine congrArg₂ Bounds.mk ?_ ?_
  · refine congrArg₂ IntRange.mk (hmin Prod.fst) ?_
    rw [hmax Prod.fst]
    omega
  · refine congrArg₂ IntRange.mk (hmin Prod.snd) ?_
    rw [hmax Prod.snd]
    omega

lemma Partition.Produced.positions_ne_nil {P : Partition}
    (h : P.Produced) : P.positions ≠ [] := by
  induction h with
  | new positions hne => exact hne
  | merge p q _ _ ihp _ =>
    simp only [Partition.merge]
    exact fun hc => ihp (List.append_eq_nil.mp hc).1

lemma Partition.Produced.bounds_eq {P : Partition}
    (h : P.Produced) : P.bounds = boundsFromList P.positions := by
  induction h with
  | new positions _ => rfl
  | merge p q hp hq ihp ihq =>
    simp only [Partition.merge, ihp, ihq]
    exact (boundsFromList_append _ _ hp.positions_ne_nil hq.positions_ne_nil).symm

/-- C5: every partition produced by `Partition::new` (nonempty
positions) or by any sequence of `Partition::merge` calls has bounds
equal to the minimum enclosing rectangle of its positions: the minimum
of the positions' x-coordinates is `bounds.x.start`, the maximum is
`bounds.x.end - 1`, and likewise for y. -/
theorem partition_bounds_min_enclosing (P : Partition)
    (h : P.Produced) :
    ((P.positions.map Prod.fst).min? = some P.bounds.x.start)
    ∧ ((P.positions.map Prod.fst).max? = some (P.bounds.x.stop - 1))
    ∧ ((P.positions.map Prod.snd).min? = some P.bounds.y.start)
    ∧ ((P.positions.map Prod.snd).max? = some (P.bounds.y.stop - 1)) := by
  rw [h.bounds_eq]
  rcases hl : P.positions with _ | ⟨p, ps⟩
  · exact absurd hl h.positions_ne_nil
  simp only [boundsFromList, boundsFold_eq, List.map_cons]
  refine ⟨rfl, ?_, rfl, ?_⟩
  · show some ((ps.map Prod.fst).foldl max p.1) = _
    congr 1
    omega
  · show some ((ps.map Prod.snd).foldl max p.2) = _
    congr 1
    omega

/-- Witness for C5: the theorem applied to
`Partition::new([(0,1)]).merge(Partition::new([(2,3)]))`. -/
theorem partition_bounds_min_enclosing_witness :
    ((((Partition.new [(0, 1)]).merge (Partition.new [(2, 3)])).positions.map
        Prod.fst).min?
      = some ((Partition.new [(0, 1)]).merge (Partition.new [(2, 3)])).bounds.x.start)
    ∧ ((((Partition.new [(0, 1)]).merge (Partition.new [(2, 3)])).positions.map
        Prod.fst).max?
      = some (((Partition.new [(0, 1)]).merge (Partition.new [(2, 3)])).bounds.x.stop - 1))
    ∧ ((((Partition.new [(0, 1)]).merge (Partition.new [(2, 3)])).positions.map
        Prod.snd).min?
      = some ((Partition.new [(0, 1)]).merge (Partition.new [(2, 3)])).bounds.y.start)
    ∧ ((((Partition.new [(0, 1)]).merge (Partition.new [(2, 3)])).positions.map
        Prod.snd).max?
      = some (((Partition.new [(0, 1)]).merge (Partition.new [(2, 3)])).bounds.y.stop - 1)) :=
  partition_bounds_min_enclosing _
    (Partition.Produced.merge _ _
      (Partition.Produced.new [(0, 1)] (by simp))
      (Partition.Produced.new [(2, 3)] (by simp)))

/-! ## Claim C8: layer order of draw_screen -/

/-- C8: `draw_screen` composites, in program order: the gradient, tile
layers 0, 1, (2 only when the Overlay flag is false), 3, object layers
4, 5, 6, then tile layer 2 when Overlay is true, then object layer 7 —
so on an overlay screen layer 2 sits above object layers 4–6 and below
object layer 7, and on a non-overlay screen layer 2 sits below all
object layers. -/
theorem draw_screen_layer_order :
    drawScreenOrder false
      = [DrawStep.gradient, DrawStep.tileLayer 0, DrawStep.tileLayer 1,
         DrawStep.tileLayer 2, DrawStep.tileLayer 3, DrawStep.objectLayer 4,
         DrawStep.objectLayer 5, DrawStep.objectLayer 6, DrawStep.objectLayer 7]
    ∧ drawScreenOrder true
      = [DrawStep.gradient, DrawStep.tileLayer 0, DrawStep.tileLayer 1,
         DrawStep.tileLayer 3, DrawStep.objectLayer 4, DrawStep.objectLayer 5,
         DrawStep.objectLayer 6, DrawStep.tileLayer 2, DrawStep.objectLayer 7] :=
  ⟨rfl, rfl⟩

/-! ## Claim C10: ScreenMap with duplicate coordinates -/

lemma foldl_insert_skip (l : List ScreenData) (off : Nat)
    (m : Coord → Option Nat) (p : Coord)
    (h : ∀ s ∈ l, s.position ≠ p) :
    ((List.enumFrom off l).foldl insertIndex m) p = m p := by
  induction l generalizing off m with
  | nil => rfl
  | cons s rest ih =>
    show ((List.enumFrom (off + 1) rest).foldl insertIndex (insertIndex m (off, s))) p = m p
    rw [ih (off + 1) _ (fun t ht => h t (List.mem_cons_of_mem _ ht))]
    exact if_neg (fun hc => h s (List.mem_cons_self s rest) hc.symm)

lemma screenMap_new_indices (l₁ l₂ l₃ : List ScreenData) (s₁ s₂ : ScreenData)
    (p : Coord) (h₂ : s₂.position = p)
    (h₄ : ∀ s ∈ l₃, s.position ≠ p) :
    (ScreenMap.new (l₁ ++ s₁ :: l₂ ++ s₂ :: l₃)).indices p
      = some (l₁.length + (l₂.length + 1)) := by
  show ((l₁ ++ s₁ :: l₂ ++ s₂ :: l₃).enum.foldl insertIndex (fun _ => Option.none)) p = _
  rw [show l₁ ++ s₁ :: l₂ ++ s₂ :: l₃ = (l₁ ++ s₁ :: l₂) ++ s₂ :: l₃ by simp]
  rw [List.enum_eq_enumFrom, List.enumFrom_append, List.foldl_append]
  rw [show List.enumFrom (0 + (l₁ ++ s₁ :: l₂).length) (s₂ :: l₃)
      = (0 + (l₁ ++ s₁ :: l₂).length, s₂)
          :: List.enumFrom (0 + (l₁ ++ s₁ :: l₂).length + 1) l₃ from rfl]
  rw [List.foldl_cons, foldl_insert_skip _ _ _ _ h₄]
  show (if p = s₂.position then some (0 + (l₁ ++ s₁ :: l₂).length) else _) = _
  rw [if_pos h₂.symm]
  simp [List.length_append]

/-- C10: feeding `ScreenMap::new` a screen list with two entries at the
same coordinate succeeds; `len` counts both entries and iteration
(`screens`) yields both, but `index`/`get` for that coordinate resolve
only to the later entry — the earlier hash-map entry is silently
overwritten. -/
theorem screenMap_duplicate_resolution (l₁ l₂ l₃ : List ScreenData)
    (s₁ s₂ : ScreenData) (p : Coord)
    (h₁ : s₁.position = p) (h₂ : s₂.position = p)
    (h₃ : ∀ s ∈ l₂, s.position ≠ p) (h₄ : ∀ s ∈ l₃, s.position ≠ p) :
    ((ScreenMap.new (l₁ ++ s₁ :: l₂ ++ s₂ :: l₃)).len
        = (l₁ ++ s₁ :: l₂ ++ s₂ :: l₃).length)
    ∧ ((ScreenMap.new (l₁ ++ s₁ :: l₂ ++ s₂ :: l₃)).screens
        = l₁ ++ s₁ :: l₂ ++ s₂ :: l₃)
    ∧ ((ScreenMap.new (l₁ ++ s₁ :: l₂ ++ s₂ :: l₃)).indexOfPos p
        = some (l₁.length + (l₂.length + 1)))
    ∧ ((ScreenMap.new (l₁ ++ s₁ :: l₂ ++ s₂ :: l₃)).get p = some s₂) := by
  have hidx := screenMap_new_indices l₁ l₂ l₃ s₁ s₂ p h₂ h₄
  refine ⟨rfl, rfl, hidx, ?_⟩
  show ((ScreenMap.new (l₁ ++ s₁ :: l₂ ++ s₂ :: l₃)).indices p).bind
    (fun i => (l₁ ++ s₁ :: l₂ ++ s₂ :: l₃).get? i) = some s₂
  rw [hidx, Option.some_bind]
  rw [show l₁ ++ s₁ :: l₂ ++ s₂ :: l₃ = (l₁ ++ s₁ :: l₂) ++ s₂ :: l₃ by simp]
  rw [List.get?_eq_getElem?,
    List.getElem?_append_right (by simp [List.length_append])]
  simp [List.length_append]

/-- Witness for C10: a two-screen list sharing coordinate `(0,0)`, with
distinguishable layer data; `get` resolves to the second entry. -/
theorem screenMap_duplicate_resolution_witness :
    ((ScreenMap.new ([] ++ ScreenData.mk (0, 0) []
          :: [] ++ ScreenData.mk (0, 0) [[(1, 1)]] :: [])).len
        = ([] ++ ScreenData.mk (0, 0) []
          :: [] ++ ScreenData.mk (0, 0) [[(1, 1)]] :: []).length)
    ∧ ((ScreenMap.new ([] ++ ScreenData.mk (0, 0) []
          :: [] ++ ScreenData.mk (0, 0) [[(1, 1)]] :: [])).screens
        = [] ++ ScreenData.mk (0, 0) []
          :: [] ++ ScreenData.mk (0, 0) [[(1, 1)]] :: [])
    ∧ ((ScreenMap.new ([] ++ ScreenData.mk (0, 0) []
          :: [] ++ ScreenData.mk (0, 0) [[(1, 1)]] :: [])).indexOfPos (0, 0)
        = some (List.length ([] : List ScreenData)
            + (List.length ([] : List ScreenData) + 1)))
    ∧ ((ScreenMap.new ([] ++ ScreenData.mk (0, 0) []
          :: [] ++ ScreenData.mk (0, 0) [[(1, 1)]] :: [])).get (0, 0)
        = some (ScreenData.mk (0, 0) [[(1, 1)]])) :=
  screenMap_duplicate_resolution [] [] []
    (ScreenData.mk (0, 0) []) (ScreenData.mk (0, 0) [[(1, 1)]]) (0, 0)
    rfl rfl (by simp) (by simp)

/-! ## Claim C9: ObjectId display/parse round trip -/

set_option maxRecDepth 8000 in
lemma natDigits_byte_range :
    ∀ n, n < 256 → ∀ c ∈ natDigits n, 48 ≤ c ∧ c ≤ 57 := by decide

set_option maxRecDepth 8000 in
lemma parseU8_natDigits : ∀ n, n < 256 → parseU8 (natDigits n) = some n := by
  decide

lemma no32_digits (n : Nat) (h : n < 256) : 32 ∉ natDigits n := by
  intro hc
  have := natDigits_byte_range n h 32 hc
  omega

lemma no45_digits (n : Nat) (h : n < 256) : 45 ∉ natDigits n := by
  intro hc
  have := natDigits_byte_range n h 45 hc
  omega

lemma splitOnce_not_mem (l : List Nat) (c : Nat) (h : c ∉ l) :
    splitOnce l c = Option.none := by
  induction l with
  | nil => rfl
  | cons x xs ih =>
    have hxc : ¬ x = c := fun hc => h (hc ▸ List.mem_cons_self x xs)
    simp only [splitOnce, if_neg hxc,
      ih (fun hc => h (List.mem_cons_of_mem _ hc))]
    rfl

lemma splitOnce_append (a b : List Nat) (c : Nat) (h : c ∉ a) :
    splitOnce (a ++ c :: b) c = some (a, b) := by
  induction a with
  | nil => simp [splitOnce]
  | cons x xs ih =>
    have hxc : ¬ x = c := fun hc => h (hc ▸ List.mem_cons_self x xs)
    show (if x = c then some ([], xs ++ c :: b)
      else (splitOnce (xs ++ c :: b) c).map (fun p => (x :: p.1, p.2)))
        = some (x :: xs, b)
    rw [if_neg hxc, ih (fun hc => h (List.mem_cons_of_mem _ hc))]
    rfl

lemma parseVariant_bytes (v : ObjectVariant) :
    parseVariant (variantBytes v) = some v := by
  cases v <;> rfl

lemma no32_bankIndex (b i : Nat) (hb : b < 256) (hi : i < 256) :
    32 ∉ natDigits b ++ 45 :: natDigits i := by
  intro hc
  rcases List.mem_append.mp hc with hc | hc
  · exact no32_digits b hb hc
  · rcases List.mem_cons.mp hc with hc | hc
    · omega
    · exact no32_digits i hi hc

lemma parseObjectId_bankIndex (b i : Nat) (hb : b < 256) (hi : i < 256)
    (v : ObjectVariant) :
    (match splitOnce (natDigits b ++ 45 :: natDigits i) 45 with
      | Option.none => Option.none
      | some (bankPart, indexPart) =>
        match parseU8 bankPart, parseU8 indexPart with
        | some bank, some index => some (ObjectId.mk (bank, index) v)
        | _, _ => Option.none) = some (ObjectId.mk (b, i) v) := by
  rw [splitOnce_append _ _ _ (no45_digits b hb)]
  show (match parseU8 (natDigits b), parseU8 (natDigits i) with
    | some bank, some index => some (ObjectId.mk (bank, index) v)
    | _, _ => Option.none) = some (ObjectId.mk (b, i) v)
  rw [parseU8_natDigits b hb, parseU8_natDigits i hi]

lemma parseObjectId_display_noVariant (b i : Nat) (hb : b < 256)
    (hi : i < 256) :
    parseObjectId (natDigits b ++ 45 :: natDigits i)
      = some (ObjectId.mk (b, i) ObjectVariant.none) := by
  unfold parseObjectId
  rw [splitOnce_not_mem _ _ (no32_bankIndex b i hb hi)]
  exact parseObjectId_bankIndex b i hb hi ObjectVariant.none

lemma parseObjectId_display_withVariant (b i : Nat) (hb : b < 256)
    (hi : i < 256) (v : ObjectVariant) :
    parseObjectId ((natDigits b ++ 45 :: natDigits i) ++ 32 :: variantBytes v)
      = some (ObjectId.mk (b, i) v) := by
  unfold parseObjectId
  rw [splitOnce_append _ _ _ (no32_bankIndex b i hb hi)]
  show (match parseVariant (variantBytes v) with
    | Option.none => Option.none
    | some variant =>
      match splitOnce (natDigits b ++ 45 :: natDigits i) 45 with
      | Option.none => Option.none
      | some (bankPart, indexPart) =>
        match parseU8 bankPart, parseU8 indexPart with
        | some bank, some index => some (ObjectId.mk (bank, index) variant)
        | _, _ => Option.none) = some (ObjectId.mk (b, i) v)
  rw [parseVariant_bytes v]
  exact parseObjectId_bankIndex b i hb hi v

/-- C9: `ObjectId` string parsing and display are mutually inverse on
every valid form.  First conjunct: parsing the display string of any
`ObjectId` (byte-valued tile components) returns the same `ObjectId`.
Second conjunct: for every valid string of form `"B-I"` (variant
`None`) or `"B-I V"` (`V` a named variant) — formalised as `validForm`,
written from the spec's description — parsing yields the corresponding
`ObjectId` and displaying that `ObjectId` reproduces the string. -/
theorem objectId_display_parse_roundtrip :
    (∀ id : ObjectId, id.tile.1 < 256 → id.tile.2 < 256 →
      parseObjectId (displayObjectId id) = some id)
    ∧ (∀ (bank index : Nat) (v : ObjectVariant), bank < 256 → index < 256 →
      parseObjectId (validForm bank index v) = some (ObjectId.mk (bank, index) v)
      ∧ displayObjectId (ObjectId.mk (bank, index) v) = validForm bank index v) := by
  have hdisplay : ∀ (b i : Nat) (v : ObjectVariant),
      displayObjectId (ObjectId.mk (b, i) v) = validForm b i v := by
    intro b i v
    cases v <;> simp [displayObjectId, validForm]
  have hparse : ∀ (b i : Nat) (v : ObjectVariant), b < 256 → i < 256 →
      parseObjectId (validForm b i v) = some (ObjectId.mk (b, i) v) := by
    intro b i v hb hi
    cases v
    case none =>
      have : validForm b i ObjectVariant.none = natDigits b ++ 45 :: natDigits i := by
        simp [validForm]
      rw [this]
      exact parseObjectId_display_noVariant b i hb hi
    all_goals
      refine Eq.trans (congrArg parseObjectId ?_)
        (parseObjectId_display_withVariant b i hb hi _)
      simp [validForm]
  refine ⟨?_, fun bank index v hb hi => ⟨hparse bank index v hb hi, hdisplay bank index v⟩⟩
  intro id hb hi
  rcases id with ⟨⟨b, i⟩, v⟩
  rw [hdisplay b i v]
  exact hparse b i v hb hi

/-- Witness for C9: the round trip evaluated at `ObjectId (200, 0)
Glow` and at the valid form for `1-2` with no variant. -/
theorem objectId_display_parse_roundtrip_witness :
    (parseObjectId (displayObjectId (ObjectId.mk (200, 0) ObjectVariant.glow))
      = some (ObjectId.mk (200, 0) ObjectVariant.glow))
    ∧ (parseObjectId (validForm 1 2 ObjectVariant.none)
        = some (ObjectId.mk (1, 2) ObjectVariant.none)
      ∧ displayObjectId (ObjectId.mk (1, 2) ObjectVariant.none)
        = validForm 1 2 ObjectVariant.none) :=
  ⟨objectId_display_parse_roundtrip.1 (ObjectId.mk (200, 0) ObjectVariant.glow)
      (by decide) (by decide),
   objectId_display_parse_roundtrip.2 1 2 ObjectVariant.none
      (by decide) (by decide)⟩

/-! ## Claim C6/C7: partitioner lemmas -/

lemma addToGroup_flatten (gs : List (Nat × List Coord)) (k : Nat) (pos : Coord) :
    (((addToGroup gs k pos).map Prod.snd).flatten).Perm
      (((gs.map Prod.snd).flatten) ++ [pos]) := by
  induction gs with
  | nil => simp [addToGroup]
  | cons g gs ih =>
    by_cases hk : g.1 = k
    · simp only [addToGroup, if_pos hk, List.map_cons, List.flatten_cons]
      rw [List.append_assoc, List.append_assoc]
      exact List.Perm.append_left _ List.perm_append_comm
    · simp only [addToGroup, if_neg hk, List.map_cons, List.flatten_cons]
      rw [List.append_assoc]
      exact List.Perm.append_left _ ih

lemma groupByKey_foldl_flatten (l : List (Nat × Coord))
    (gs : List (Nat × List Coord)) :
    (((l.foldl (fun gs kp => addToGroup gs kp.1 kp.2) gs).map Prod.snd).flatten).Perm
      ((gs.map Prod.snd).flatten ++ l.map Prod.snd) := by
  induction l generalizing gs with
  | nil => simp
  | cons kp l ih =>
    have t1 := ih (addToGroup gs kp.1 kp.2)
    have t2 := (addToGroup_flatten gs kp.1 kp.2).append
      (List.Perm.refl (l.map Prod.snd))
    have t3 : ((gs.map Prod.snd).flatten ++ [kp.2]) ++ l.map Prod.snd
        = (gs.map Prod.snd).flatten ++ (kp :: l).map Prod.snd := by
      simp
    exact t1.trans (t3 ▸ t2)

lemma groupByKey_flatten (l : List (Nat × Coord)) :
    (((groupByKey l).map Prod.snd).flatten).Perm (l.map Prod.snd) := by
  simpa [groupByKey] using groupByKey_foldl_flatten l []

lemma addToGroup_nonempty (gs : List (Nat × List Coord)) (k : Nat)
    (pos : Coord) (h : ∀ g ∈ gs, g.2 ≠ []) :
    ∀ g ∈ addToGroup gs k pos, g.2 ≠ [] := by
  induction gs with
  | nil =>
    intro g hg
    simp only [addToGroup, List.mem_singleton] at hg
    subst hg
    simp
  | cons g₀ gs ih =>
    intro g hg
    by_cases hk : g₀.1 = k
    · simp only [addToGroup, if_pos hk, List.mem_cons] at hg
      rcases hg with rfl | hg
      · simp
      · exact h g (List.mem_cons_of_mem _ hg)
    · simp only [addToGroup, if_neg hk, List.mem_cons] at hg
      rcases hg with rfl | hg
      · exact h g (List.mem_cons_self _ _)
      · exact ih (fun g' hg' => h g' (List.mem_cons_of_mem _ hg')) g hg

lemma groupByKey_nonempty (l : List (Nat × Coord)) :
    ∀ g ∈ groupByKey l, g.2 ≠ [] := by
  suffices h : ∀ gs, (∀ g ∈ gs, g.2 ≠ []) →
      ∀ g ∈ l.foldl (fun gs kp => addToGroup gs kp.1 kp.2) gs, g.2 ≠ [] by
    exact h [] (by simp)
  induction l with
  | nil => exact fun gs h => h
  | cons kp l ih =>
    intro gs hgs
    exact ih (addToGroup gs kp.1 kp.2) (addToGroup_nonempty gs kp.1 kp.2 hgs)

lemma componentLabels_length (positions : List Coord) (maxGap : Nat) :
    (componentLabels positions maxGap).length = positions.length := by
  simp [componentLabels]

lemma graphIntoPartitions_positions (positions : List Coord) (maxGap : Nat) :
    ((graphIntoPartitions positions maxGap).flatMap Partition.positions).Perm
      positions := by
  have h1 : (graphIntoPartitions positions maxGap).flatMap Partition.positions
      = ((groupByKey ((componentLabels positions maxGap).zip positions)).map
          Prod.snd).flatten := by
    rw [graphIntoPartitions, List.flatMap_map]
    rw [List.flatMap_def]
    rfl
  rw [h1]
  have h2 := groupByKey_flatten ((componentLabels positions maxGap).zip positions)
  rwa [List.map_snd_zip _ _ (by rw [componentLabels_length])] at h2

lemma graphIntoPartitions_mem (positions : List Coord) (maxGap : Nat)
    (q : Partition) (hq : q ∈ graphIntoPartitions positions maxGap) :
    q.positions ≠ [] ∧ q.bounds = boundsFromList q.positions := by
  rw [graphIntoPartitions] at hq
  rcases List.mem_map.mp hq with ⟨g, hg, rfl⟩
  exact ⟨groupByKey_nonempty _ g hg, rfl⟩

lemma sum_ite_range (n j c : Nat) :
    (((List.range n).map (fun k => if j = k then c else 0)).sum)
      = if j < n then c else 0 := by
  induction n with
  | zero => simp
  | succ n ih =>
    rw [List.range_succ, List.map_append, List.sum_append, ih]
    by_cases hj : j < n
    · have : j ≠ n := by omega
      simp [hj, this, Nat.lt_succ_of_lt hj]
    · by_cases hj' : j = n
      · subst hj'
        simp [hj]
      · have : ¬ j < n + 1 := by omega
        simp [hj, hj', this]

lemma flatten_ite_insert (g : Nat → List Coord) (x : Coord) (j n : Nat)
    (hj : j < n) :
    (((List.range n).map (fun k => if j = k then x :: g k else g k)).flatten).Perm
      (x :: ((List.range n).map g).flatten) := by
  induction n with
  | zero => omega
  | succ n ih =>
    rw [List.range_succ, List.map_append, List.map_append,
      List.flatten_append, List.flatten_append]
    by_cases hjn : j = n
    · subst hjn
      have hmap : (List.range j).map (fun k => if j = k then x :: g k else g k)
          = (List.range j).map g := by
        apply List.map_congr_left
        intro k hk
        have : j ≠ k := by
          have := List.mem_range.mp hk
          omega
        simp [this]
      rw [hmap]
      simp only [List.map_singleton, List.flatten_cons, if_pos rfl,
        List.flatten_nil, List.append_nil]
      exact List.perm_middle
    · have hj' : j < n := by omega
      have := (ih hj').append
        (List.Perm.refl (([n].map (fun k => if j = k then x :: g k else g k)).flatten))
      refine this.trans ?_
      simp only [List.map_singleton, List.flatten_cons, if_neg hjn,
        List.flatten_nil, List.append_nil, List.cons_append]
      exact List.Perm.refl _

lemma filter_range_flatten (l : List Coord) (f : Coord → Nat) (n : Nat)
    (h : ∀ x ∈ l, f x < n) :
    ((((List.range n).map (fun k => l.filter (fun x => decide (f x = k)))).flatten)).Perm
      l := by
  induction l with
  | nil => simp
  | cons x l ih =>
    have hmap : (List.range n).map (fun k => (x :: l).filter (fun y => decide (f y = k)))
        = (List.range n).map (fun k =>
            if f x = k then x :: l.filter (fun y => decide (f y = k))
            else l.filter (fun y => decide (f y = k))) := by
      apply List.map_congr_left
      intro k _
      rw [List.filter_cons]
      by_cases hfx : f x = k
      · simp [hfx]
      · simp [hfx]
    rw [hmap]
    have hx : f x < n := h x (List.mem_cons_self x l)
    refine (flatten_ite_insert _ x (f x) n hx).trans ?_
    exact (ih (fun y hy => h y (List.mem_cons_of_mem _ hy))).cons x

lemma gridBuckets_fold_spec (b : Bounds) (cw ch rows cols : Nat) :
    ∀ (l : List Coord) (cells : List (List Coord)),
    (∀ pos ∈ l, gridCellIndex b cw ch rows cols pos < cells.length) →
    ((l.foldl (fun cells pos =>
        let ci := gridCellIndex b cw ch rows cols pos
        cells.set ci (cells.getD ci [] ++ [pos])) cells).length = cells.length)
    ∧ (∀ k, k < cells.length →
      (l.foldl (fun cells pos =>
        let ci := gridCellIndex b cw ch rows cols pos
        cells.set ci (cells.getD ci [] ++ [pos])) cells).getD k []
      = cells.getD k []
        ++ l.filter (fun pos => decide (gridCellIndex b cw ch rows cols pos = k))) := by
  intro l
  induction l with
  | nil => intro cells _; exact ⟨rfl, fun k _ => by simp⟩
  | cons pos l ih =>
    intro cells h
    have hci : gridCellIndex b cw ch rows cols pos < cells.length :=
      h pos (List.mem_cons_self pos l)
    set ci := gridCellIndex b cw ch rows cols pos with hci_def
    have hlen : (cells.set ci (cells.getD ci [] ++ [pos])).length = cells.length :=
      List.length_set cells ci _
    have hall : ∀ q ∈ l, gridCellIndex b cw ch rows cols q
        < (cells.set ci (cells.getD ci [] ++ [pos])).length := by
      rw [hlen]
      exact fun q hq => h q (List.mem_cons_of_mem _ hq)
    obtain ⟨ihlen, ihget⟩ := ih (cells.set ci (cells.getD ci [] ++ [pos])) hall
    constructor
    · simpa [hlen] using ihlen
    · intro k hk
      have hget : (cells.set ci (cells.getD ci [] ++ [pos])).getD k []
          = if ci = k then cells.getD k [] ++ [pos] else cells.getD k [] := by
        rw [List.getD_eq_getElem?_getD, List.getElem?_set]
        by_cases hc : ci = k
        · subst hc
          simp [hci, List.getD_eq_getElem?_getD, List.getElem?_eq_getElem hci]
        · simp [hc, List.getD_eq_getElem?_getD]
      have step := ihget k (by rw [hlen]; exact hk)
      rw [List.foldl_cons]
      rw [step, hget, List.filter_cons]
      by_cases hc : ci = k
      · subst hc
        simp [List.append_assoc]
      · simp [hc]

lemma gridCellIndex_lt (b : Bounds) (cw ch rows cols : Nat)
    (hrows : 1 ≤ rows) (hcols : 1 ≤ cols) (pos : Coord) :
    gridCellIndex b cw ch rows cols pos < rows * cols := by
  obtain ⟨R, rfl⟩ := Nat.exists_eq_add_of_le hrows
  obtain ⟨C, rfl⟩ := Nat.exists_eq_add_of_le hcols
  have h1 : gridCellIndex b cw ch (1 + R) (1 + C) pos
      ≤ C + R * (1 + C) := by
    rw [gridCellIndex]
    have hx : min (((pos.1 - b.x.start).natAbs) / cw) ((1 + C) - 1) ≤ C := by
      have := min_le_right (((pos.1 - b.x.start).natAbs) / cw) ((1 + C) - 1)
      omega
    have hy : min (((pos.2 - b.y.start).natAbs) / ch) ((1 + R) - 1) ≤ R := by
      have := min_le_right (((pos.2 - b.y.start).natAbs) / ch) ((1 + R) - 1)
      omega
    exact Nat.add_le_add hx (Nat.mul_le_mul_right _ hy)
  have key : C + R * (1 + C) + 1 = (1 + R) * (1 + C) := by ring
  linarith

lemma partitionsFromGrid_positions (positions : List Coord) (b : Bounds)
    (rows cols : Nat) (hrows : 1 ≤ rows) (hcols : 1 ≤ cols) :
    ((partitionsFromGrid positions b rows cols).flatMap
        Partition.positions).Perm positions := by
  set cw := ceilDivNat b.width cols
  set ch := ceilDivNat b.height rows
  have hbound : ∀ pos ∈ positions,
      gridCellIndex b cw ch rows cols pos < rows * cols :=
    fun pos _ => gridCellIndex_lt b cw ch rows cols hrows hcols pos
  have hspec := gridBuckets_fold_spec b cw ch rows cols positions
    (List.replicate (rows * cols) ([] : List Coord))
    (by simpa using hbound)
  have hbuckets : gridBuckets positions b cw ch rows cols
      = (List.range (rows * cols)).map
          (fun k => positions.filter
            (fun pos => decide (gridCellIndex b cw ch rows cols pos = k))) := by
    apply List.ext_getElem?
    intro k
    by_cases hk : k < rows * cols
    · have hlen1 : (gridBuckets positions b cw ch rows cols).length
          = rows * cols := by
        rw [gridBuckets]
        simpa using hspec.1
      have hget := hspec.2 k (by simpa using hk)
      rw [List.getElem?_eq_getElem (by rw [hlen1]; exact hk),
        List.getElem?_eq_getElem (by simpa using hk)]
      have hGd : (gridBuckets positions b cw ch rows cols).getD k []
          = positions.filter
              (fun pos => decide (gridCellIndex b cw ch rows cols pos = k)) := by
        rw [gridBuckets]
        rw [hget]
        simp [List.getD_eq_getElem?_getD, List.getElem?_replicate, hk]
      rw [List.getD_eq_getElem?_getD,
        List.getElem?_eq_getElem (by rw [hlen1]; exact hk)] at hGd
      simp only [Option.getD_some] at hGd
      rw [hGd]
      congr 1
      simp [List.getElem_map, List.getElem_range]
    · have hlen1 : (gridBuckets positions b cw ch rows cols).length
          = rows * cols := by
        rw [gridBuckets]
        simpa using hspec.1
      rw [List.getElem?_eq_none (by rw [hlen1]; omega),
        List.getElem?_eq_none (by simpa using hk)]
  rw [partitionsFromGrid]
  rw [List.flatMap_def, List.map_map]
  have hmapnew : (((gridBuckets positions b cw ch rows cols).filter
        (fun c => !c.isEmpty)).map (Partition.positions ∘ Partition.new))
      = ((gridBuckets positions b cw ch rows cols).filter
        (fun c => !c.isEmpty)) := by
    rw [List.map_eq_iff]
    intro k
    cases hkk : (((gridBuckets positions b cw ch rows cols).filter
        (fun c => !c.isEmpty)))[k]? <;> simp [hkk, Partition.new]
  rw [show (fun c => decide ¬c.isEmpty = true) = (fun c : List Coord => !c.isEmpty) by
    funext c
    cases c <;> simp]
  rw [hmapnew]
  have hflatfilter : ∀ X : List (List Coord),
      ((X.filter (fun c => !c.isEmpty)).flatten) = X.flatten := by
    intro X
    induction X with
    | nil => rfl
    | cons c X ihX =>
      cases c with
      | nil => simpa using ihX
      | cons y ys =>
        simp [List.filter_cons, ihX]
  rw [hflatfilter, hbuckets]
  exact filter_range_flatten positions _ _ hbound

lemma foldl_min_le_init (xs : List Int) (a : Int) : xs.foldl min a ≤ a := by
  induction xs generalizing a with
  | nil => exact le_refl a
  | cons x xs ih => exact le_trans (ih (min a x)) (min_le_left a x)

lemma init_le_foldl_max (xs : List Int) (a : Int) : a ≤ xs.foldl max a := by
  induction xs generalizing a with
  | nil => exact le_refl a
  | cons x xs ih => exact le_trans (le_max_left a x) (ih (max a x))

lemma boundsFromList_size_pos (l : List Coord) (h : l ≠ []) :
    1 ≤ (boundsFromList l).width ∧ 1 ≤ (boundsFromList l).height := by
  rcases l with _ | ⟨p, ps⟩
  · exact absurd rfl h
  simp only [boundsFromList, boundsFold_eq, Bounds.width, Bounds.height]
  constructor
  · have h1 := foldl_min_le_init (ps.map Prod.fst) p.1
    have h2 := init_le_foldl_max (ps.map Prod.fst) p.1
    omega
  · have h1 := foldl_min_le_init (ps.map Prod.snd) p.2
    have h2 := init_le_foldl_max (ps.map Prod.snd) p.2
    omega

lemma ceilDivNat_pos (w c : Nat) (hw : 1 ≤ w) (hc : 1 ≤ c) :
    1 ≤ ceilDivNat w c := by
  rw [ceilDivNat, Nat.one_le_div_iff (by omega)]
  omega

lemma attenuateMaxGap_bounds (minGap maxGap : Nat) (h : minGap < maxGap) :
    minGap ≤ attenuateMaxGap minGap maxGap
      ∧ attenuateMaxGap minGap maxGap < maxGap := by
  rw [attenuateMaxGap]
  by_cases h5 : 5 < maxGap - minGap
  · rw [if_pos h5]
    omega
  · rw [if_neg h5, Nat.max_def]
    by_cases hle : minGap ≤ maxGap - 1
    · rw [if_pos hle]
      omega
    · rw [if_neg hle]
      omega

lemma flatMap_congr_perm (l : List Partition) (f g : Partition → List Coord)
    (h : ∀ x ∈ l, (f x).Perm (g x)) : (l.flatMap f).Perm (l.flatMap g) := by
  induction l with
  | nil => exact List.Perm.refl _
  | cons x l ih =>
    simp only [List.flatMap_cons]
    exact (h x (List.mem_cons_self x l)).append
      (ih (fun y hy => h y (List.mem_cons_of_mem _ hy)))

lemma partitionRecursivelyF_positions (maxSize : Nat × Nat) (minGap : Nat)
    (h1 : 1 ≤ maxSize.1) (h2 : 1 ≤ maxSize.2) :
    ∀ (fuel maxGap : Nat) (p : Partition), maxGap < fuel →
    ((partitionRecursivelyF maxSize minGap fuel maxGap p).flatMap
        Partition.positions).Perm p.positions := by
  intro fuel
  induction fuel with
  | zero => intro maxGap p hf; omega
  | succ fuel ih =>
    intro maxGap p hf
    rw [partitionRecursivelyF]
    rw [List.flatMap_assoc]
    refine (flatMap_congr_perm _ _ Partition.positions ?_).trans
      (graphIntoPartitions_positions p.positions maxGap)
    intro q hq
    obtain ⟨hqne, hqbounds⟩ := graphIntoPartitions_mem p.positions maxGap q hq
    by_cases hrec : (isPartitionTooLarge q maxSize = true) ∧ minGap < maxGap
    · rw [if_pos hrec]
      have hatt := attenuateMaxGap_bounds minGap maxGap hrec.2
      exact ih (attenuateMaxGap minGap maxGap) q (by omega)
    · rw [if_neg (by simpa using hrec)]
      by_cases hgrid : (isPartitionTooLarge q maxSize = true) ∧ maxGap = minGap
      · rw [if_pos (by simpa using hgrid)]
        obtain ⟨hw, hh⟩ := boundsFromList_size_pos q.positions hqne
        rw [← hqbounds] at hw hh
        exact partitionsFromGrid_positions q.positions q.bounds _ _
          (ceilDivNat_pos _ _ hh h2) (ceilDivNat_pos _ _ hw h1)
      · rw [if_neg (by simpa using hgrid)]
        simp

lemma partitionRecursively_positions (maxSize : Nat × Nat)
    (minGap maxGap : Nat) (p : Partition)
    (h1 : 1 ≤ maxSize.1) (h2 : 1 ≤ maxSize.2) :
    ((partitionRecursively maxSize minGap maxGap p).flatMap
        Partition.positions).Perm p.positions :=
  partitionRecursivelyF_positions maxSize minGap h1 h2 (maxGap + 1) maxGap p
    (by omega)

lemma graphIntoPartitions_single (c : Coord) (maxGap : Nat) :
    graphIntoPartitions [c] maxGap = [Partition.new [c]] := rfl

lemma singleScreen_not_tooLarge (c : Coord) (maxSize : Nat × Nat)
    (h1 : 1 ≤ maxSize.1) (h2 : 1 ≤ maxSize.2) :
    isPartitionTooLarge (Partition.new [c]) maxSize = false := by
  simp only [isPartitionTooLarge, Partition.new, boundsFromList, boundsFold,
    List.foldl_nil, Bounds.width, Bounds.height]
  have hx : ((c.1 + 1) - c.1).natAbs = 1 := by omega
  have hy : ((c.2 + 1) - c.2).natAbs = 1 := by omega
  simp only [hx, hy]
  simp only [Bool.or_eq_false_iff, decide_eq_false_iff_not, not_lt]
  exact ⟨h1, h2⟩

/-- C7 (counterexample): with `max_size = (0, 0)` (and gap range
`0..=1`) even a single-screen partition is "too large" (its bounds are
1×1 and `1 > 0`), so the recursive branch of `partition_recursively` IS
taken — the claim that a partition with a single screen never recurses
fails for degenerate size budgets. -/
theorem islands_single_screen_recursion_cex :
    takesRecursiveBranch (Partition.new [((0 : Int), (0 : Int))]) (0, 0) 0 1
      = true := by decide

/-- C7 (amended): for every gap range with `min_gap < max_gap`, the
attenuated gap satisfies `min_gap ≤ attenuate_max_gap(min_gap, max_gap)
< max_gap` — so on every recursive call the new `max_gap` stays at or
above `min_gap` and strictly decreases, which is why the recursion
(embedded with fuel `max_gap + 1`) terminates, the grid fallback being
taken at `max_gap == min_gap`; and provided `max_size ≥ (1, 1)`, a
partition with a single screen never takes the recursive branch and is
returned unchanged. -/
theorem islands_attenuation_and_single_screen :
    (∀ minGap maxGap : Nat, minGap < maxGap →
      minGap ≤ attenuateMaxGap minGap maxGap
        ∧ attenuateMaxGap minGap maxGap < maxGap)
    ∧ (∀ (c : Coord) (maxSize : Nat × Nat) (minGap maxGap : Nat),
        1 ≤ maxSize.1 → 1 ≤ maxSize.2 →
        partitionRecursively maxSize minGap maxGap (Partition.new [c])
            = [Partition.new [c]]
          ∧ takesRecursiveBranch (Partition.new [c]) maxSize minGap maxGap
            = false) := by
  refine ⟨attenuateMaxGap_bounds, ?_⟩
  intro c maxSize minGap maxGap h1 h2
  have htl := singleScreen_not_tooLarge c maxSize h1 h2
  constructor
  · rw [partitionRecursively, partitionRecursivelyF]
    have hpos : (Partition.new [c]).positions = [c] := rfl
    rw [hpos, graphIntoPartitions_single]
    simp [htl]
  · rw [takesRecursiveBranch]
    have hpos : (Partition.new [c]).positions = [c] := rfl
    rw [hpos, graphIntoPartitions_single]
    simp [htl]

/-- Witness for C7: the amended theorem applied at the gap range
`0..=10` and at a single screen `(5, 7)` with the default
48000×48000 size budget. -/
theorem islands_attenuation_and_single_screen_witness :
    (0 ≤ attenuateMaxGap 0 10 ∧ attenuateMaxGap 0 10 < 10)
    ∧ (partitionRecursively (48000, 48000) 1 20 (Partition.new [((5 : Int), (7 : Int))])
          = [Partition.new [(5, 7)]]
        ∧ takesRecursiveBranch (Partition.new [((5 : Int), (7 : Int))])
            (48000, 48000) 1 20 = false) :=
  ⟨islands_attenuation_and_single_screen.1 0 10 (by decide),
   islands_attenuation_and_single_screen.2 (5, 7) (48000, 48000) 1 20
     (by decide) (by decide)⟩

/-! ## merge_redundant_partitions lemmas -/

lemma Bounds.union_eq_left (a b : Bounds) (h : a.contains b) :
    Bounds.union a b = a := by
  rcases a with ⟨⟨axs, axe⟩, ⟨ays, aye⟩⟩
  rcases b with ⟨⟨bxs, bxe⟩, ⟨bys, bye⟩⟩
  simp only [Bounds.contains, ge_iff_le] at h
  obtain ⟨h1, h2, h3, h4⟩ := h
  simp only [Bounds.union]
  congr 1 <;> congr 1 <;> omega

lemma Bounds.union_eq_right (a b : Bounds) (h : b.contains a) :
    Bounds.union a b = b := by
  rcases a with ⟨⟨axs, axe⟩, ⟨ays, aye⟩⟩
  rcases b with ⟨⟨bxs, bxe⟩, ⟨bys, bye⟩⟩
  simp only [Bounds.contains, ge_iff_le] at h
  obtain ⟨h1, h2, h3, h4⟩ := h
  simp only [Bounds.union]
  congr 1 <;> congr 1 <;> omega

lemma pairClean_symm {ps : List Partition} {a b : Nat}
    (h : pairClean ps a b) : pairClean ps b a := ⟨h.2, h.1⟩

lemma getD_set_self (l : List Partition) (i : Nat) (v d : Partition)
    (h : i < l.length) : (l.set i v).getD i d = v := by
  rw [List.getD_eq_getElem?_getD, List.getElem?_set]
  simp [h]

lemma getD_set_ne (l : List Partition) (i k : Nat) (v d : Partition)
    (h : i ≠ k) : (l.set i v).getD k d = l.getD k d := by
  rw [List.getD_eq_getElem?_getD, List.getElem?_set, if_neg h,
    ← List.getD_eq_getElem?_getD]

lemma swapRemove_length (l : List Partition) (hne : l ≠ []) (j : Nat) :
    (swapRemove l j).length = l.length - 1 := by
  rw [swapRemove]
  cases hl : l.getLast? with
  | none => exact absurd (List.getLast?_eq_none_iff.mp hl) hne
  | some last => simp [List.length_dropLast, List.length_set]

lemma swapRemove_getD (l : List Partition) (j k : Nat) (hj : j < l.length)
    (hk : k < l.length - 1) (d : Partition) :
    (swapRemove l j).getD k d
      = if k = j then l.getD (l.length - 1) d else l.getD k d := by
  have hne : l ≠ [] := by
    intro h
    subst h
    simp at hj
  obtain ⟨z, hz⟩ : ∃ z, l.getLast? = some z := by
    cases hl : l.getLast? with
    | none => exact absurd (List.getLast?_eq_none_iff.mp hl) hne
    | some z => exact ⟨z, rfl⟩
  have hzval : l.getD (l.length - 1) d = z := by
    rw [List.getLast?_eq_getElem?] at hz
    rw [List.getD_eq_getElem?_getD, hz]
    rfl
  rw [swapRemove, hz]
  have hklen : k < ((l.set j z).dropLast).length := by
    simp only [List.length_dropLast, List.length_set]
    exact hk
  rw [List.getD_eq_getElem?_getD, List.getElem?_eq_getElem hklen]
  rw [List.getElem_dropLast, List.getElem_set]
  by_cases hkj : k = j
  · rw [if_pos hkj.symm, if_pos hkj, hzval]
    rfl
  · rw [if_neg (fun h => hkj h.symm), if_neg hkj, List.getD_eq_getElem?_getD,
      List.getElem?_eq_getElem (by simp [List.length_set] at hklen; omega)]

lemma cons_swapRemove_perm (l : List Partition) (j : Nat) (hj : j < l.length)
    (d : Partition) :
    ((l.getD j d) :: swapRemove l j).Perm l := by
  have hne : l ≠ [] := by
    intro h
    subst h
    simp at hj
  obtain ⟨z, hz⟩ : ∃ z, l.getLast? = some z := by
    cases hl : l.getLast? with
    | none => exact absurd (List.getLast?_eq_none_iff.mp hl) hne
    | some z => exact ⟨z, rfl⟩
  rw [swapRemove, hz]
  show ((l.getD j d) :: (l.set j z).dropLast).Perm l
  have hzlast : l.getLast hne = z := by
    rw [List.getLast?_eq_getLast l hne] at hz
    exact Option.some.inj hz
  by_cases hjl : j = l.length - 1
  · -- removing the final slot: `set` writes the last element back in place
    have hset : l.set j z = l := by
      have hz' : l[j] = z := by
        rw [List.getLast?_eq_getElem?, ← hjl,
          List.getElem?_eq_getElem (by omega : j < l.length)] at hz
        exact Option.some.inj hz
      rw [← hz']
      apply List.ext_getElem
      · simp
      · intro k h1 h2
        rw [List.getElem_set]
        split
        · subst_vars
          rfl
        · rfl
    rw [hset]
    have hgd : l.getD j d = z := by
      rw [List.getD_eq_getElem?_getD, hjl, ← List.getLast?_eq_getElem?, hz]
      rfl
    rw [hgd]
    have hdecomp : l.dropLast ++ [z] = l := by
      conv_rhs => rw [← List.dropLast_append_getLast hne]
      rw [hzlast]
    conv_rhs => rw [← hdecomp]
    have := @List.perm_append_comm _ [z] l.dropLast
    simpa using this
  · -- removing an interior slot: the last element moves into slot `j`
    have hjlt : j < l.length - 1 := by omega
    have hdrop_ne : l.drop (j + 1) ≠ [] := by
      intro h
      have := congrArg List.length h
      simp at this
      omega
    rw [List.set_eq_take_cons_drop z hj]
    have hdecomp : l.drop (j + 1) = (l.drop (j + 1)).dropLast ++ [z] := by
      conv_lhs => rw [← List.dropLast_append_getLast hdrop_ne]
      rw [List.getLast_drop hdrop_ne, hzlast]
    have hstep : (l.take j ++ z :: l.drop (j + 1)).dropLast
        = l.take j ++ z :: (l.drop (j + 1)).dropLast := by
      conv_lhs => rw [hdecomp]
      rw [show l.take j ++ z :: ((l.drop (j + 1)).dropLast ++ [z])
          = (l.take j ++ z :: (l.drop (j + 1)).dropLast) ++ [z] by simp]
      exact List.dropLast_concat
    rw [hstep]
    have hl_decomp : l = l.take j ++ l.getD j d :: l.drop (j + 1) := by
      conv_lhs => rw [← List.take_append_drop j l]
      congr 1
      rw [List.drop_eq_getElem_cons hj]
      congr 1
      rw [List.getD_eq_getElem?_getD, List.getElem?_eq_getElem hj]
      rfl
    conv_rhs => rw [hl_decomp]
    refine List.Perm.trans ?_ List.perm_middle.symm
    refine List.Perm.cons _ (List.Perm.append_left _ ?_)
    conv_rhs => rw [hdecomp]
    have := @List.perm_append_comm _ [z] (l.drop (j + 1)).dropLast
    simpa using this

lemma allPositions_set_merge (q : List Partition) (i : Nat) (r : Partition)
    (hi : i < q.length) :
    (allPositions (q.set i ((q.getD i (Partition.new [])).merge r))).Perm
      (allPositions q ++ r.positions) := by
  have hgetEq : q[i] = q.getD i (Partition.new []) := by
    rw [List.getD_eq_getElem?_getD, List.getElem?_eq_getElem hi]
    rfl
  have rhs_eq : allPositions q
      = (q.take i).flatMap Partition.positions
        ++ ((q.getD i (Partition.new [])).positions
          ++ (q.drop (i + 1)).flatMap Partition.positions) := by
    rw [allPositions]
    conv_lhs => rw [← List.take_append_drop i q]
    rw [List.flatMap_append]
    congr 1
    rw [List.drop_eq_getElem_cons hi, List.flatMap_cons, hgetEq]
  have lhs_eq : allPositions (q.set i ((q.getD i (Partition.new [])).merge r))
      = (q.take i).flatMap Partition.positions
        ++ (((q.getD i (Partition.new [])).positions ++ r.positions)
          ++ (q.drop (i + 1)).flatMap Partition.positions) := by
    rw [allPositions, List.set_eq_take_cons_drop _ hi, List.flatMap_append,
      List.flatMap_cons]
    rfl
  rw [lhs_eq, rhs_eq]
  rw [show ((q.take i).flatMap Partition.positions
        ++ ((q.getD i (Partition.new [])).positions
          ++ (q.drop (i + 1)).flatMap Partition.positions)) ++ r.positions
      = (q.take i).flatMap Partition.positions
        ++ ((q.getD i (Partition.new [])).positions
          ++ ((q.drop (i + 1)).flatMap Partition.positions ++ r.positions)) by simp]
  refine List.Perm.append_left _ ?_
  rw [show ((q.getD i (Partition.new [])).positions ++ r.positions)
        ++ (q.drop (i + 1)).flatMap Partition.positions
      = (q.getD i (Partition.new [])).positions
        ++ (r.positions ++ (q.drop (i + 1)).flatMap Partition.positions) by simp]
  refine List.Perm.append_left _ ?_
  exact List.perm_append_comm

lemma step_positions_perm (ps : List Partition) (i j : Nat)
    (hi : i < ps.length) (hj : j < ps.length) (hij : i < j) :
    (allPositions (mergeStep ps i j)).Perm (allPositions ps) := by
  rw [mergeStep]
  have hne : ps ≠ [] := by
    intro h
    subst h
    simp at hj
  have hqlen : (swapRemove ps j).length = ps.length - 1 :=
    swapRemove_length ps hne j
  have hilen : i < ps.length - 1 := by omega
  have hiq : i < (swapRemove ps j).length := by omega
  have h1 := allPositions_set_merge (swapRemove ps j) i
    (ps.getD j (Partition.new [])) hiq
  refine h1.trans ?_
  have h2 : (allPositions ((ps.getD j (Partition.new [])) :: swapRemove ps j)).Perm
      (allPositions ps) :=
    List.Perm.flatMap_right Partition.positions
      (cons_swapRemove_perm ps j hj (Partition.new []))
  rw [allPositions, List.flatMap_cons] at h2
  refine List.Perm.trans ?_ h2
  exact List.perm_append_comm

lemma innerLoopF_positions :
    ∀ (fuel : Nat) (cur : Bounds) (ps : List Partition) (i j : Nat), i < j →
    (allPositions (innerLoopF fuel cur ps i j)).Perm (allPositions ps) := by
  intro fuel
  induction fuel with
  | zero => intro cur ps i j _; exact List.Perm.refl _
  | succ fuel ih =>
    intro cur ps i j hij
    rw [innerLoopF]
    by_cases hguard : i < ps.length ∧ j < ps.length
    · rw [if_pos hguard]
      by_cases hc1 : cur.contains (boundsAt ps j)
      · rw [if_pos hc1]
        exact (ih cur _ i j hij).trans
          (step_positions_perm ps i j hguard.1 hguard.2 hij)
      · rw [if_neg hc1]
        by_cases hc2 : (boundsAt ps j).contains cur
        · rw [if_pos hc2]
          exact (ih cur _ i (i + 1) (by omega)).trans
            (step_positions_perm ps i j hguard.1 hguard.2 hij)
        · rw [if_neg hc2]
          exact ih cur ps i (j + 1) (by omega)
    · rw [if_neg hguard]

lemma innerLoop_positions (ps : List Partition) (i j : Nat) (hij : i < j) :
    (allPositions (innerLoop ps i j)).Perm (allPositions ps) :=
  innerLoopF_positions _ _ ps i j hij

lemma innerLoopF_length_le :
    ∀ (fuel : Nat) (cur : Bounds) (ps : List Partition) (i j : Nat),
    (innerLoopF fuel cur ps i j).length ≤ ps.length := by
  intro fuel
  induction fuel with
  | zero => intro cur ps i j; exact le_refl _
  | succ fuel ih =>
    intro cur ps i j
    rw [innerLoopF]
    by_cases hguard : i < ps.length ∧ j < ps.length
    · rw [if_pos hguard]
      have hne : ps ≠ [] := by
        intro h
        subst h
        simp at hguard
      have hslen : (mergeStep ps i j).length = ps.length - 1 := by
        rw [mergeStep, List.length_set, swapRemove_length ps hne j]
      by_cases hc1 : cur.contains (boundsAt ps j)
      · rw [if_pos hc1]
        exact le_trans (ih cur _ i j) (by rw [hslen]; omega)
      · rw [if_neg hc1]
        by_cases hc2 : (boundsAt ps j).contains cur
        · rw [if_pos hc2]
          exact le_trans (ih cur _ i (i + 1)) (by rw [hslen]; omega)
        · rw [if_neg hc2]
          exact ih cur ps i (j + 1)
    · rw [if_neg hguard]

lemma outerLoopF_positions :
    ∀ (fuel : Nat) (ps : List Partition) (i : Nat),
    (allPositions (outerLoopF fuel ps i)).Perm (allPositions ps) := by
  intro fuel
  induction fuel with
  | zero => intro ps i; exact List.Perm.refl _
  | succ fuel ih =>
    intro ps i
    rw [outerLoopF]
    by_cases hi : i < ps.length
    · rw [if_pos hi]
      exact (ih _ _).trans (innerLoop_positions ps i (i + 1) (by omega))
    · rw [if_neg hi]

lemma mergeRedundantPartitions_positions (ps : List Partition) :
    (allPositions (mergeRedundantPartitions ps)).Perm (allPositions ps) :=
  outerLoopF_positions _ ps 0

lemma mergeStep_length (ps : List Partition) (i j : Nat) (hj : j < ps.length) :
    (mergeStep ps i j).length = ps.length - 1 := by
  have hne : ps ≠ [] := by
    intro h
    subst h
    simp at hj
  rw [mergeStep, List.length_set, swapRemove_length ps hne j]

lemma mergeStep_getD_ne (ps : List Partition) (i j k : Nat)
    (hj : j < ps.length) (hk : k < ps.length - 1) (hki : k ≠ i) :
    (mergeStep ps i j).getD k (Partition.new [])
      = if k = j then ps.getD (ps.length - 1) (Partition.new [])
        else ps.getD k (Partition.new []) := by
  rw [mergeStep, getD_set_ne _ _ _ _ _ (fun h => hki h.symm)]
  exact swapRemove_getD ps j k hj hk _

lemma mergeStep_boundsAt_i (ps : List Partition) (i j : Nat)
    (hi : i < ps.length) (hj : j < ps.length) (hij : i < j) :
    boundsAt (mergeStep ps i j) i
      = Bounds.union (boundsAt ps i) (boundsAt ps j) := by
  have hne : ps ≠ [] := by
    intro h
    subst h
    simp at hj
  have hilen : i < ps.length - 1 := by omega
  have hiq : i < (swapRemove ps j).length := by
    rw [swapRemove_length ps hne j]
    omega
  rw [boundsAt, mergeStep, getD_set_self _ _ _ _ hiq]
  show Bounds.union ((swapRemove ps j).getD i (Partition.new [])).bounds
    ((ps.getD j (Partition.new [])).bounds) = _
  rw [swapRemove_getD ps j i hj hilen, if_neg (by omega : ¬ i = j)]
  rfl

/-- The positions-coverage half of the partitioner contract: for both
partitioners the concatenation of the returned position lists is a
permutation of the input coordinate list, so every element is drawn
from the input screen coordinates and the union equals the input
coordinate set.  Hypotheses restrict the size budget (and any
row/column overrides) to be nonzero, since a zero budget makes the
Rust code's f64 `ceil` saturate, which the Nat model does not
reproduce.  The containment half of the contract is refuted below. -/
lemma partitioner_positions_cover :
    (∀ (g : GridPartitioner) (sm : ScreenMap),
      1 ≤ g.maxSize.1 → 1 ≤ g.maxSize.2 →
      (∀ r, g.rowsOpt = some r → 1 ≤ r) →
      (∀ c, g.colsOpt = some c → 1 ≤ c) →
      ((g.partitions sm).flatMap Partition.positions).Perm sm.iterPositions)
    ∧ (∀ (isl : IslandsPartitioner) (sm : ScreenMap),
      1 ≤ isl.maxSize.1 → 1 ≤ isl.maxSize.2 →
      ((isl.partitions sm).flatMap Partition.positions).Perm sm.iterPositions) := by
  refine ⟨?_, ?_⟩
  · intro g sm h1 h2 hr hc
    rw [GridPartitioner.partitions]
    by_cases hfit : (boundsFromList sm.iterPositions).width ≤ g.maxSize.1
        ∧ (boundsFromList sm.iterPositions).height ≤ g.maxSize.2
    · rw [if_pos hfit]
      simp [Partition.new]
    · rw [if_neg hfit]
      have hne : sm.iterPositions ≠ [] := by
        intro h0
        rw [h0] at hfit
        refine hfit ⟨?_, ?_⟩ <;>
          · simp only [boundsFromList, Bounds.width, Bounds.height]
            omega
      have hwh := boundsFromList_size_pos sm.iterPositions hne
      have hrows : 1 ≤ g.rowsOpt.getD
          (calcGridRows (boundsFromList sm.iterPositions) g.maxSize.2) := by
        cases hro : g.rowsOpt with
        | none => simpa [calcGridRows] using ceilDivNat_pos _ _ hwh.2 h2
        | some r => simpa using hr r hro
      have hcols : 1 ≤ g.colsOpt.getD
          (calcGridCols (boundsFromList sm.iterPositions) g.maxSize.1) := by
        cases hco : g.colsOpt with
        | none => simpa [calcGridCols] using ceilDivNat_pos _ _ hwh.1 h1
        | some c => simpa using hc c hco
      exact partitionsFromGrid_positions _ _ _ _ hrows hcols
  · intro isl sm h1 h2
    rw [IslandsPartitioner.partitions]
    by_cases hfit : isl.force = false
        ∧ isPartitionTooLarge (Partition.new sm.iterPositions) isl.maxSize
          = false
    · rw [if_pos hfit]
      simp [Partition.new]
    · rw [if_neg hfit]
      exact List.Perm.trans
        (mergeRedundantPartitions_positions
          (partitionRecursively isl.maxSize isl.gapMin isl.gapMax
            (Partition.new sm.iterPositions)))
        (partitionRecursively_positions isl.maxSize isl.gapMin isl.gapMax
          (Partition.new sm.iterPositions) h1 h2)

/-- C6: the positions-coverage part of the claim holds (see
`partitioner_positions_cover`), but the containment-freeness part is a
bug in the code, exhibited here by evaluation.  On `staleSnapshotInput`
(bounds A = `[0,1)²`, B = `[0,10)²`, C = `[5,6)²` with A ⊂ B, C ⊂ B and
A, C incomparable), `merge_redundant_partitions` terminates with two
partitions whose bounds are B and C, and B strictly contains C.  The
cause is that the snapshot `let current = partitions[i].bounds()`
(partition/mod.rs line 28) is never refreshed: after the second branch
merges B into slot 0 and restarts at `j = i + 1`, the rescan still
compares C against the stale A, finds them incomparable, and leaves C
in place — so the restart the code's own comment ("replace the current
partition with that one ... Start over") and the spec's "restart the
inner loop ... (to recompute)" call for never actually recomputes. -/
theorem mergeRedundant_stale_current_eval :
    mergeRedundantPartitions staleSnapshotInput
      = [Partition.mk [(0, 0), (0, 0), (9, 9)]
           (Bounds.mk (IntRange.mk 0 10) (IntRange.mk 0 10)),
         Partition.mk [(5, 5)] (Bounds.mk (IntRange.mk 5 6) (IntRange.mk 5 6))]
    ∧ (boundsAt (mergeRedundantPartitions staleSnapshotInput) 0).contains
        (boundsAt (mergeRedundantPartitions staleSnapshotInput) 1)
    ∧ boundsAt (mergeRedundantPartitions staleSnapshotInput) 0
        ≠ boundsAt (mergeRedundantPartitions staleSnapshotInput) 1
    ∧ ¬ pairClean (mergeRedundantPartitions staleSnapshotInput) 0 1 := by
  decide

end KSMapper
